import Mathlib

/-!
Verification of the question/answer CSV ingestion, answer-segmentation and
round-selection core of the quiz applications (the `qa_utils` family).

The Python strings are modelled as `List Char`.  The CSV reading boundary is
modelled after `csv.DictReader`: the ingest functions receive the header row
and the list of data records (each a list of cell strings); dialect sniffing
and file IO are outside the modelled core.  Randomness used by
`random.sample` is modelled as an input stream of naturals.

Modelling notes on regular expressions (all patterns are taken from the
source):
* `re.match(r"^\s*-\s+(.*)", line)` on a single line is `bulletMatch`.
* `re.search(r"(?m)^\s*-\s+", text)` is `bulletSearch`: it anchors at the
  start of the string and after every newline, and since `\s` also matches a
  newline the whitespace runs may cross line boundaries, which `isBulletAt`
  reproduces by running `dropWhile pySpace` over the whole suffix.
* `str.lower()` is modelled on the ASCII range (`lowerChar`); the claims are
  decided on inputs where this coincides with Python.
* `str.splitlines()` is modelled as splitting on `'\n'` (the cells are
  normalised so that `\r\n` and `\r` become `\n` before any splitting; the
  rarer boundary characters such as `\x0b` are not modelled as line breaks).
-/

namespace Qa

abbrev Str := List Char

/-- Python whitespace (`str.strip`, `\s`) restricted to the ASCII range. -/
def pySpace (c : Char) : Bool :=
  c = ' ' || c = '\t' || c = '\n' || c = '\r' || c = '\x0b' || c = '\x0c'

/-- Python `str.lstrip()`. -/
def lstrip (s : Str) : Str := s.dropWhile pySpace

/-- Python `str.rstrip()`. -/
def rstrip (s : Str) : Str := (s.reverse.dropWhile pySpace).reverse

/-- Python `str.strip()`. -/
def strip (s : Str) : Str := rstrip (lstrip s)

/-- Python `str.strip(chars)` for an explicit character set. -/
def stripSet (cs : List Char) (s : Str) : Str :=
  ((s.dropWhile (· ∈ cs)).reverse.dropWhile (· ∈ cs)).reverse

/-- Python `str.lower()` on one character, on the ASCII range. -/
def lowerChar (c : Char) : Char :=
  if 'A' ≤ c ∧ c ≤ 'Z' then Char.ofNat (c.toNat + 32) else c

/-- Python `str.lower()` mapped over a string. -/
def lower (s : Str) : Str := s.map lowerChar

/-- Normalisation `cell.replace("\r\n", "\n").replace("\r", "\n")`. -/
def normNl : Str → Str
  | [] => []
  | c :: t =>
    if c = '\r' then
      match t with
      | d :: u => if d = '\n' then '\n' :: normNl u else '\n' :: normNl (d :: u)
      | [] => ['\n']
    else c :: normNl t

/-- Split a string at every character satisfying `p` (the separators are
dropped; `n+1` separators yield `n+2` pieces, like `str.split(sep)` and
`re.split` on a single-character class). -/
def splitPred (p : Char → Bool) : Str → List Str
  | [] => [[]]
  | c :: t =>
    if p c then [] :: splitPred p t
    else
      match splitPred p t with
      | l :: ls => (c :: l) :: ls
      | [] => [[c]]

/-- Split at newline characters (every piece, including a trailing empty one). -/
def splitOnNl (s : Str) : List Str := splitPred (· = '\n') s

/-- Python `str.splitlines()` for `\n`-normalised text: like `splitOnNl` but with no
piece after a terminal newline, and no piece at all for the empty string. -/
def splitlines (s : Str) : List Str :=
  if s = [] then []
  else if s.getLast? = some '\n' then (splitOnNl s).dropLast
  else splitOnNl s

/-- Python `"\n".join(parts)`. -/
def joinNl : List Str → Str
  | [] => []
  | [l] => l
  | l :: ls => l ++ '\n' :: joinNl ls

/-- Matching `re.match(r"^\s*-\s+(.*)", line)` on a single (newline-free) line:
leading whitespace, a hyphen, at least one whitespace character; the greedy
`\s+` eats the following whitespace run, and the returned group is the rest
of the line. -/
def bulletMatch (ln : Str) : Option Str :=
  match ln.dropWhile pySpace with
  | x :: c :: rest => if x = '-' ∧ pySpace c then some ((c :: rest).dropWhile pySpace) else none
  | _ => none

/-- Whether `\s*-\s+` matches at the start of the given suffix of the text
(the whitespace runs may cross newlines, since `\s` matches `\n`). -/
def isBulletAt (s : Str) : Bool :=
  match s.dropWhile pySpace with
  | x :: c :: _ => x = '-' && pySpace c
  | _ => false

/-- The suffixes of `s` that begin just after a newline (the anchor points of
`(?m)^` other than the start of the string). -/
def suffixesAfterNewline : Str → List Str
  | [] => []
  | c :: t => if c = '\n' then t :: suffixesAfterNewline t else suffixesAfterNewline t

/-- Search `re.search(r"(?m)^\s*-\s+", text) is not None`. -/
def bulletSearch (s : Str) : Bool :=
  isBulletAt s || (suffixesAfterNewline s).any isBulletAt

/-- The line loop shared by `_split_line_bullets_multiline` (molsejt) and the
bullet branch of `_answers_from_cell` (kemia): a bullet-opening line flushes
the current block and starts a new one from the regex group; any other line
is appended (right-stripped) to the current block once a bullet has been
seen; the final block is flushed at the end. -/
def bulletLoop : List Str → List Str → List Str → Bool → List Str
  | [], answers, current, _ =>
    if current = [] then answers else answers ++ [rstrip (joinNl current)]
  | ln :: rest, answers, current, inB =>
    match bulletMatch ln with
    | some r =>
      bulletLoop rest
        (if current = [] then answers else answers ++ [rstrip (joinNl current)]) [r] true
    | none =>
      if inB then bulletLoop rest answers (current ++ [rstrip ln]) inB
      else bulletLoop rest answers current inB

/-- Function `_split_line_bullets_multiline` (molsejt `qa_utils.py`). -/
def splitLineBulletsMultiline (text : Str) : List Str :=
  if strip text = [] then []
  else if bulletSearch text then
    (bulletLoop (splitlines text) [] [] false).filter (fun a => strip a ≠ [])
  else []

/-- Whether `\s-\s+` matches right here, i.e. `c` is whitespace and `t`
starts with a hyphen followed by at least one whitespace character; returns
the text after the match (the greedy `\s+` having eaten the whitespace run). -/
def wsHyphenHere (c : Char) (t : Str) : Option Str :=
  if pySpace c then
    match t with
    | x :: d :: u => if x = '-' ∧ pySpace d then some ((d :: u).dropWhile pySpace) else none
    | _ => none
  else none

/-- First match of `\s-\s+` in `s`: returns the text before the match and the
text after it. -/
def findWsHyphenSplit : Str → Option (Str × Str)
  | [] => none
  | c :: t =>
    match wsHyphenHere c t with
    | some aft => some ([], aft)
    | none => (findWsHyphenSplit t).map (fun p => (c :: p.1, p.2))

theorem wsHyphenHere_length : ∀ c t a, wsHyphenHere c t = some a → a.length ≤ t.length := by
  intro c t a h
  unfold wsHyphenHere at h
  split at h
  · split at h
    · split at h
      · cases h
        exact le_trans (List.dropWhile_sublist pySpace).length_le (by simp)
      · cases h
    · cases h
  · cases h

theorem findWsHyphenSplit_length :
    ∀ s b a, findWsHyphenSplit s = some (b, a) → a.length < s.length := by
  intro s
  induction s with
  | nil => intro b a h; simp [findWsHyphenSplit] at h
  | cons c t ih =>
    intro b a h
    simp only [findWsHyphenSplit] at h
    rcases hm : wsHyphenHere c t with _ | aft
    · simp only [hm, Option.map_eq_some'] at h
      obtain ⟨p, hp, hpe⟩ := h
      simp only [Prod.mk.injEq] at hpe
      obtain ⟨hb, ha⟩ := hpe
      subst ha
      have hlt := ih p.1 p.2 hp
      simp only [List.length_cons]
      omega
    · simp only [hm, Option.some.injEq, Prod.mk.injEq] at h
      obtain ⟨hb, ha⟩ := h
      subst ha
      have := wsHyphenHere_length c t aft hm
      simp only [List.length_cons]
      omega

/-- Fuelled worker for `splitWsHyphen`; the suffix shrinks at every split, so
a fuel of `s.length + 1` never runs out. -/
def splitWsHyphenF : Nat → Str → List Str
  | 0, s => [s]
  | fuel + 1, s =>
    match findWsHyphenSplit s with
    | none => [s]
    | some (b, a) => b :: splitWsHyphenF fuel a

/-- Splitting `re.split(r"\s-\s+", s)`: repeatedly split at the leftmost match. -/
def splitWsHyphen (s : Str) : List Str := splitWsHyphenF (s.length + 1) s

/-- Function `_split_inline_hyphen_semicolon` (molsejt `qa_utils.py`): split at
` - ` first, else at `;`; a `/` never splits. -/
def splitInlineHyphenSemicolon (text : Str) : List Str :=
  let s := strip text
  if s = [] then []
  else if (findWsHyphenSplit s).isSome then
    ((splitWsHyphen s).map (stripSet [' ', ';'])).filter (· ≠ [])
  else if ';' ∈ s then
    ((splitPred (· = ';') s).map strip).filter (· ≠ [])
  else [s]

/-- Function `_answers_from_cell` (molsejt `qa_utils.py`). -/
def answersFromCell : Option Str → List Str
  | none => []
  | some cell =>
    let txt := strip (normNl cell)
    let bullets := splitLineBulletsMultiline txt
    if bullets ≠ [] then bullets
    else
      let inline := splitInlineHyphenSemicolon txt
      if inline ≠ [] then inline
      else if txt ≠ [] then [txt] else []

/-- Function `_answers_from_cell` (orvosi_kemai `qa_utils_kemia.py`): bullet blocks,
else ` - `, else the class `[;,]`, else one element; `/` never splits. -/
def answersFromCellK : Option Str → List Str
  | none => []
  | some cell =>
    let txt := strip (normNl cell)
    if bulletSearch txt then
      (bulletLoop (splitlines txt) [] [] false).filter (fun a => strip a ≠ [])
    else if (findWsHyphenSplit txt).isSome then
      (((splitWsHyphen txt).filter (fun p => strip p ≠ [])).map
        (stripSet [' ', ',', ';'])).filter (· ≠ [])
    else if ';' ∈ txt ∨ ',' ∈ txt then
      ((splitPred (fun c => c = ';' || c = ',') txt).map strip).filter (· ≠ [])
    else if txt ≠ [] then [txt] else []

/-! ### The ingested mapping

Python's insertion-ordered `dict` is modelled as an association list whose
keys are unique by construction. -/

abbrev QaDict := List (Str × List Str)

/-- The keys of the mapping, in insertion order. -/
def qaKeys (qa : QaDict) : List Str := qa.map (·.1)

/-- Lookup `qa[k]` as an option (`k in qa` is `(lookup? qa k).isSome`). -/
def lookup? : QaDict → Str → Option (List Str)
  | [], _ => none
  | (k', v') :: rest, k => if k' = k then some v' else lookup? rest k

/-- Assignment `qa[k] = v` for a key already present: replace the value in place. -/
def updateVal : QaDict → Str → List Str → QaDict
  | [], _, _ => []
  | (k', v') :: rest, k, v =>
    if k' = k then (k', v) :: rest else (k', v') :: updateVal rest k v

/-- The duplicate-merge loop of `beolvas_csv_dict`: walk the concatenated
answers, keep an answer when its stripped, lowered form is non-empty and not
seen before, storing the stripped text of its first occurrence. -/
def dedupCIgo : List Str → List Str → List Str
  | [], _ => []
  | a :: rest, seen =>
    let key := lower (strip a)
    if key ≠ [] ∧ key ∉ seen then strip a :: dedupCIgo rest (key :: seen)
    else dedupCIgo rest seen

/-- Case-insensitive deduplication as performed on merged answer lists. -/
def dedupCI (l : List Str) : List Str := dedupCIgo l []

/-- A list of answers with no case-insensitive duplicate. -/
def ciNodup (l : List Str) : Prop := (l.map (fun a => lower (strip a))).Nodup

instance (l : List Str) : Decidable (ciNodup l) := List.nodupDecidable _

/-- One row of the molsejt `beolvas_csv_dict` loop: skip empty questions,
segment the answer cell, merge with case-insensitive dedup when the key is
already present, else append a new entry. -/
def ingestStep (qa : QaDict) (row : Str × Str) : QaDict :=
  let question := strip row.1
  if question = [] then qa
  else
    let answers := answersFromCell (some row.2)
    match lookup? qa question with
    | some v => updateVal qa question (dedupCI (v ++ answers))
    | none => qa ++ [(question, answers)]

/-- The whole row loop of molsejt `beolvas_csv_dict`, over (question cell,
answer cell) pairs. -/
def buildQa (rows : List (Str × Str)) : QaDict := rows.foldl ingestStep []

/-! ### Column discovery and `csv.DictReader` row access -/

/-- The entry of `_find_column`'s lower map for one candidate: the header
whose stripped, lowered spelling equals the candidate (the dict build lets
the last such header win). -/
def lowerMapLookup (header : List Str) (cand : Str) : Option Str :=
  (header.filter (fun k => lower (strip k) == cand)).getLast?

/-- Function `_find_column(row, *candidates)`: first candidate present in the lower
map, returning the original header spelling. -/
def findColumn (header : List Str) : List Str → Option Str
  | [] => none
  | c :: cs =>
    match lowerMapLookup header c with
    | some k => some k
    | none => findColumn header cs

/-- A `csv.DictReader` record padded to the header length; missing cells are
`None`, which every consumer immediately converts to the empty string. -/
def padRecord (n : Nat) (record : List Str) : List Str :=
  record.take n ++ List.replicate (n - record.length) []

/-- Access `row.get(col, "") or ""`: the cell of a record under a header name (the
last duplicate header wins, as in the dict built by `csv.DictReader`). -/
def rowGet (header record : List Str) (col : Str) : Str :=
  match ((header.zip (padRecord header.length record)).filter
      (fun p => p.1 == col)).getLast? with
  | some p => p.2
  | none => []

/-- The reported failures of the core (the spec's NotFound is the missing
file, outside the modelled boundary). `emptyCsv`, `noHeaderColumns` and
`noQaPairs` are the `ValueError`/`KeyError` raises of ingestion and are all
FormatError kinds; `invalidArgument` is the round-selection `ValueError`. -/
inductive IngestErr
  | emptyCsv
  | noHeaderColumns
  | noQaPairs
  | invalidArgument
  deriving DecidableEq

/-- Whether an ingestion failure is of the spec's FormatError kind. -/
def isFormatErr : IngestErr → Bool
  | .emptyCsv | .noHeaderColumns | .noQaPairs => true
  | .invalidArgument => false

instance {ε α : Type} [DecidableEq ε] [DecidableEq α] : DecidableEq (Except ε α) := fun a b =>
  match a, b with
  | .error e, .error f =>
    if h : e = f then isTrue (congrArg Except.error h)
    else isFalse (fun hh => h (Except.error.inj hh))
  | .ok x, .ok y =>
    if h : x = y then isTrue (congrArg Except.ok h)
    else isFalse (fun hh => h (Except.ok.inj hh))
  | .error _, .ok _ => isFalse (fun hh => Except.noConfusion hh)
  | .ok _, .error _ => isFalse (fun hh => Except.noConfusion hh)

/-- Function `beolvas_csv_dict` (molsejt `qa_utils.py`), from the `csv.DictReader`
boundary on: header row plus data records in, mapping or reported error
out. -/
def beolvas_csv_dict (header : List Str) (records : List (List Str)) :
    Except IngestErr QaDict :=
  if records = [] then .error .emptyCsv
  else
    match findColumn header ["question".data, "questions".data],
        findColumn header ["answer".data, "answers".data] with
    | some qc, some ac =>
      let qa := buildQa (records.map (fun r => (rowGet header r qc, rowGet header r ac)))
      if qa = [] then .error .noQaPairs else .ok qa
    | _, _ => .error .noHeaderColumns

/-! ### The strict-pattern (kemia) variant -/

/-- Matching `re.match(r"^\s*\d+\.\s+.+!\s*$", s)` as a boolean: leading whitespace,
digits, a period, at least one whitespace character, then a non-empty,
newline-free stretch up to a `!` that only whitespace follows.  Without the
multiline flag `\s` may cross newlines while `.` may not, so all newlines
before the `!` must fit inside the whitespace run that `\s+` can absorb
(never reaching the character right before the `!`). -/
def strictQuestionMatch (s : Str) : Bool :=
  let a := s.dropWhile pySpace
  let ds := a.takeWhile (·.isDigit)
  if ds = [] then false
  else
    match a.drop ds.length with
    | '.' :: b =>
      let w := b.takeWhile pySpace
      if w = [] then false
      else
        let r := rstrip b
        if r.getLast? ≠ some '!' then false
        else
          let j := r.length - 1
          if j < 2 then false
          else decide ('\n' ∉ (b.take j).drop (min w.length (j - 1)))
    | _ => false

/-- Function `_extract_question_strict` (kemia): keep the first line when it matches
the strict pattern, else the whole trimmed cell. -/
def extractQuestionStrict (text : Str) : Str :=
  let s := strip text
  if s = [] then s
  else
    let firstLine := (splitlines s).headD []
    if strictQuestionMatch firstLine then strip firstLine else strip s

/-- One line matched against `QUESTION_HEADER_RE`
(`(?m)^\s*(\d+)\.\s+(?P<q>.+?)!\s*$`): returns the `q` group.  The lazy
`.+?` combined with the all-whitespace tail makes the `!` the last
non-whitespace character of the line. -/
def headerLineMatch (ln : Str) : Option Str :=
  let a := ln.dropWhile pySpace
  let ds := a.takeWhile (·.isDigit)
  if ds = [] then none
  else
    match a.drop ds.length with
    | '.' :: b =>
      let w := b.takeWhile pySpace
      if w = [] then none
      else
        let body := b.drop w.length
        let r := rstrip body
        if r.getLast? = some '!' ∧ 2 ≤ r.length then some r.dropLast else none
    | _ => none

/-- Flush the block gathered for the current question header, if any (the
gathered lines are accumulated in reverse). -/
def flushBlock : Option (Str × List Str) → List (Str × Str)
  | none => []
  | some (k, accRev) => [(k, joinNl accRev.reverse)]

/-- The `finditer` walk of `_parse_numbered_text_strict`, line by line: a
line matching the strict header pattern starts a new question (its key is
the trimmed `q` group plus `"!"`); every other line extends the block of the
current question; lines before the first header belong to no block. -/
def gatherBlocks : List Str → Option (Str × List Str) → List (Str × Str)
  | [], cur => flushBlock cur
  | ln :: rest, cur =>
    match headerLineMatch ln with
    | some q => flushBlock cur ++ gatherBlocks rest (some (strip q ++ ['!'], []))
    | none =>
      match cur with
      | none => gatherBlocks rest none
      | some (k, acc) => gatherBlocks rest (some (k, ln :: acc))

/-- The per-block answer rule of `_parse_numbered_text_strict`: bullet cells
go through `_answers_from_cell`, anything else is one trimmed element. -/
def blockAnswers (block : Str) : List Str :=
  if bulletSearch block then answersFromCellK (some block)
  else if strip block = [] then [] else [strip block]

/-- Plain `qa[k] = v` on the ordered mapping (insertion position kept). -/
def assignQa (qa : QaDict) (k : Str) (v : List Str) : QaDict :=
  if (lookup? qa k).isSome then updateVal qa k v else qa ++ [(k, v)]

/-- Function `_parse_numbered_text_strict` (kemia / kemia1). -/
def parseNumberedTextStrict (text : Str) : QaDict :=
  (gatherBlocks (splitOnNl text) none).foldl
    (fun qa kv => assignQa qa kv.1 (blockAnswers kv.2)) []

/-- One row of the kemia `beolvas_csv_dict` loop: extract the strict
question line, skip the row unless it matches the strict pattern, else merge
exactly as in the molsejt loop. -/
def ingestStepK (qa : QaDict) (row : Str × Str) : QaDict :=
  let question := extractQuestionStrict row.1
  if strictQuestionMatch question then
    let answers := answersFromCellK (some row.2)
    match lookup? qa question with
    | some v => updateVal qa question (dedupCI (v ++ answers))
    | none => qa ++ [(question, answers)]
  else qa

/-- The whole row loop of kemia `beolvas_csv_dict`. -/
def buildQaK (rows : List (Str × Str)) : QaDict := rows.foldl ingestStepK []

/-- Access `row.get(col, "") if col else ""` for the possibly undiscovered column. -/
def optColGet (header record : List Str) : Option Str → Str
  | some c => rowGet header record c
  | none => []

/-- Function `beolvas_csv_dict` (kemia `qa_utils_kemia.py`), from the reader boundary
on; `rawText` is the file's raw text, consulted by the strict numbered-text
fallbacks. -/
def beolvas_csv_dict_kemia (header : List Str) (records : List (List Str))
    (rawText : Str) : Except IngestErr QaDict :=
  if records = [] then
    match parseNumberedTextStrict rawText with
    | [] => .error .emptyCsv
    | qaFb => .ok qaFb
  else
    let qc := findColumn header ["questions".data, "question".data]
    let ac := findColumn header ["answers".data, "answer".data]
    let qa := buildQaK (records.map (fun r => (optColGet header r qc, optColGet header r ac)))
    if qa = [] then
      match parseNumberedTextStrict rawText with
      | [] => .error .noQaPairs
      | qaFb => .ok qaFb
    else .ok qa

/-! ### Round selection -/

/-- Sampling `random.sample(pool, n)` with the randomness supplied as a stream of
naturals: draw `n` elements without replacement, each draw removing the
chosen position from the pool. -/
def sampleGo : List Nat → Nat → List Str → List Str
  | _, 0, _ => []
  | _, _ + 1, [] => []
  | rs, n + 1, c :: pool =>
    let i := rs.headD 0 % (c :: pool).length
    (c :: pool).getD i [] :: sampleGo rs.tail n ((c :: pool).eraseIdx i)

/-- Function `valassz_kerdeseket` (molsejt and kemia, identical bodies): reject a
request for more questions than there are, else sample the keys. -/
def valassz_kerdeseket (qa : QaDict) (n : Nat) (rand : List Nat) :
    Except IngestErr (List Str) :=
  if qa.length < n then .error .invalidArgument
  else .ok (sampleGo rand n (qaKeys qa))

/-- Function `valassz_kerdeseket` seen as a state transformer on its `qa` argument:
the Python body only reads `len(qa)` and `list(qa.keys())` and never mutates
the dict, so the post-state is the argument itself. -/
def valassz_kerdeseket_run (qa : QaDict) (n : Nat) (rand : List Nat) :
    Except IngestErr (List Str) × QaDict :=
  (valassz_kerdeseket qa n rand, qa)

/-! ### String lemmas -/

theorem dropWhile_dropWhile (p : Char → Bool) (l : Str) :
    (l.dropWhile p).dropWhile p = l.dropWhile p := by
  induction l with
  | nil => rfl
  | cons c t ih =>
    by_cases h : p c
    · rw [List.dropWhile_cons_of_pos h]; exact ih
    · rw [List.dropWhile_cons_of_neg h, List.dropWhile_cons_of_neg h]

theorem rstrip_rstrip (s : Str) : rstrip (rstrip s) = rstrip s := by
  unfold rstrip
  rw [List.reverse_reverse, dropWhile_dropWhile]

theorem rstrip_strip (s : Str) : rstrip (strip s) = strip s := by
  unfold strip
  exact rstrip_rstrip _

theorem dropWhile_head_false (p : Char → Bool) :
    ∀ (l : Str) c t, l.dropWhile p = c :: t → p c = false := by
  intro l
  induction l with
  | nil => intro c t h; cases h
  | cons x l' ih =>
    intro c t h
    by_cases hx : p x
    · rw [List.dropWhile_cons_of_pos hx] at h; exact ih c t h
    · rw [List.dropWhile_cons_of_neg hx] at h
      cases h
      exact Bool.eq_false_iff.mpr hx

theorem mem_dropWhile_of_false (p : Char → Bool) :
    ∀ (l : Str) c, c ∈ l → p c = false → c ∈ l.dropWhile p := by
  intro l
  induction l with
  | nil => intro c h; cases h
  | cons x l' ih =>
    intro c h hc
    by_cases hx : p x
    · rw [List.dropWhile_cons_of_pos hx]
      rcases List.mem_cons.mp h with rfl | h'
      · rw [hx] at hc; cases hc
      · exact ih c h' hc
    · rw [List.dropWhile_cons_of_neg hx]; exact h

theorem mem_rstrip_of_false (s : Str) (c : Char) (h : c ∈ s) (hc : pySpace c = false) :
    c ∈ rstrip s := by
  unfold rstrip
  rw [List.mem_reverse]
  exact mem_dropWhile_of_false _ _ _ (List.mem_reverse.mpr h) hc

theorem mem_strip_of_false (s : Str) (c : Char) (h : c ∈ s) (hc : pySpace c = false) :
    c ∈ strip s :=
  mem_rstrip_of_false _ _ (mem_dropWhile_of_false _ _ _ h hc) hc

theorem strip_ne_nil_of_mem (s : Str) (c : Char) (h : c ∈ s) (hc : pySpace c = false) :
    strip s ≠ [] :=
  List.ne_nil_of_mem (mem_strip_of_false s c h hc)

/-- Every string is its right-strip followed by trailing whitespace. -/
theorem rstrip_decomp (s : Str) :
    ∃ w, s = rstrip s ++ w ∧ ∀ c ∈ w, pySpace c = true := by
  refine ⟨(s.reverse.takeWhile pySpace).reverse, ?_, ?_⟩
  · conv_lhs => rw [← List.reverse_reverse s, ← List.takeWhile_append_dropWhile pySpace s.reverse]
    rw [List.reverse_append]
    rfl
  · intro c hc
    exact List.mem_takeWhile_imp (List.mem_reverse.mp hc)

theorem head?_rstrip (s : Str) (c : Char) (h : (rstrip s).head? = some c) :
    s.head? = some c := by
  obtain ⟨w, hw, -⟩ := rstrip_decomp s
  rw [hw, List.head?_append_of_ne_nil]
  · exact h
  · intro hnil; rw [hnil] at h; cases h

/-- The head of a non-empty stripped string is not whitespace. -/
theorem strip_head_false (s : Str) (c : Char) (h : (strip s).head? = some c) :
    pySpace c = false := by
  have h2 : (lstrip s).head? = some c := head?_rstrip _ _ h
  obtain ⟨t, ht⟩ : ∃ t, lstrip s = c :: t := by
    cases hl : lstrip s with
    | nil => rw [hl] at h2; cases h2
    | cons x t => rw [hl] at h2; cases h2; exact ⟨t, rfl⟩
  exact dropWhile_head_false pySpace s c t ht

/-- A string of the form `strip y` strips to itself being non-empty: its
strip is again non-empty. -/
theorem strip_strip_ne_nil (y : Str) (h : strip y ≠ []) : strip (strip y) ≠ [] := by
  obtain ⟨c, t, hct⟩ : ∃ c t, strip y = c :: t := by
    cases hl : strip y with
    | nil => exact absurd hl h
    | cons x t => exact ⟨x, t, rfl⟩
  have hc : pySpace c = false := strip_head_false y c (by rw [hct]; rfl)
  exact strip_ne_nil_of_mem _ c (by rw [hct]; exact List.mem_cons_self _ _) hc

/-- A stripped non-empty string ends in a non-whitespace character. -/
theorem getLast_nonspace (s : Str) (c : Char) (hr : rstrip s = s)
    (h : s.getLast? = some c) : pySpace c = false := by
  by_contra hc
  have hc' : pySpace c = true := by
    cases hcc : pySpace c
    · exact absurd hcc hc
    · rfl
  have hrev : s.reverse.head? = some c := by rw [List.head?_reverse]; exact h
  obtain ⟨t, ht⟩ : ∃ t, s.reverse = c :: t := by
    cases hl : s.reverse with
    | nil => rw [hl] at hrev; cases hrev
    | cons x t => rw [hl] at hrev; cases hrev; exact ⟨t, rfl⟩
  have hlen : (rstrip s).length ≤ t.length := by
    unfold rstrip
    rw [ht, List.dropWhile_cons_of_pos hc', List.length_reverse]
    exact (List.dropWhile_sublist pySpace).length_le
  have hslen : s.length = t.length + 1 := by
    rw [← List.length_reverse s, ht]; rfl
  rw [hr, hslen] at hlen
  omega

/-! ### splitPred / splitlines lemmas -/

theorem splitPred_ne_nil (p : Char → Bool) : ∀ s, splitPred p s ≠ [] := by
  intro s
  cases s with
  | nil => simp [splitPred]
  | cons c t =>
    by_cases h : p c
    · simp [splitPred, h]
    · simp only [splitPred, if_neg h]
      cases splitPred p t <;> simp

theorem splitPred_no_sep (p : Char → Bool) :
    ∀ s, (∀ c ∈ s, p c = false) → splitPred p s = [s] := by
  intro s
  induction s with
  | nil => intro; rfl
  | cons c t ih =>
    intro h
    have hc : p c = false := h c (List.mem_cons_self _ _)
    have ht := ih (fun x hx => h x (List.mem_cons_of_mem _ hx))
    simp [splitPred, hc, ht]

theorem splitPred_append_sep (p : Char → Bool) :
    ∀ l r, (∀ c ∈ l, p c = false) → p '\n' = true →
      splitPred p (l ++ '\n' :: r) = l :: splitPred p r := by
  intro l
  induction l with
  | nil =>
    intro r _ hnl
    simp [splitPred, hnl]
  | cons c t ih =>
    intro r h hnl
    have hc : p c = false := h c (List.mem_cons_self _ _)
    have ht := ih r (fun x hx => h x (List.mem_cons_of_mem _ hx)) hnl
    simp [splitPred, hc, ht]

/-- Every string either has no newline or splits at its first newline. -/
theorem newline_decomp (s : Str) :
    ('\n' ∉ s) ∨ ∃ l r, s = l ++ '\n' :: r ∧ '\n' ∉ l := by
  induction s with
  | nil => left; simp
  | cons c t ih =>
    by_cases hc : c = '\n'
    · right; exact ⟨[], t, by rw [hc]; rfl, by simp⟩
    · rcases ih with h | ⟨l, r, hlr, hl⟩
      · left
        simp only [List.mem_cons, not_or]
        exact ⟨fun hx => hc hx.symm, h⟩
      · right
        refine ⟨c :: l, r, by rw [hlr]; rfl, ?_⟩
        simp only [List.mem_cons, not_or]
        exact ⟨fun hx => hc hx.symm, hl⟩

theorem suffixesAfterNewline_no_nl (l : Str) (h : '\n' ∉ l) :
    suffixesAfterNewline l = [] := by
  induction l with
  | nil => rfl
  | cons c t ih =>
    simp only [List.mem_cons, not_or] at h
    have hcne : ¬(c = '\n') := fun hc => h.1 hc.symm
    simp only [suffixesAfterNewline, if_neg hcne]
    exact ih h.2

theorem suffixesAfterNewline_append (l r : Str) (h : '\n' ∉ l) :
    suffixesAfterNewline (l ++ '\n' :: r) = r :: suffixesAfterNewline r := by
  induction l with
  | nil => simp [suffixesAfterNewline]
  | cons c t ih =>
    simp only [List.mem_cons, not_or] at h
    have hcne : ¬(c = '\n') := fun hc => h.1 hc.symm
    simp only [List.cons_append, suffixesAfterNewline, if_neg hcne]
    exact ih h.2

theorem dropWhile_append_drop (l z : Str) :
    (l ++ z).dropWhile pySpace = (l.dropWhile pySpace ++ z).dropWhile pySpace := by
  calc (l ++ z).dropWhile pySpace
      = ((l.takeWhile pySpace ++ l.dropWhile pySpace) ++ z).dropWhile pySpace := by
        rw [List.takeWhile_append_dropWhile]
    _ = (l.takeWhile pySpace ++ (l.dropWhile pySpace ++ z)).dropWhile pySpace := by
        rw [List.append_assoc]
    _ = (l.dropWhile pySpace ++ z).dropWhile pySpace := by
        rw [List.dropWhile_append_of_pos]
        intro a ha
        exact List.mem_takeWhile_imp ha

theorem isBulletAt_of_bulletMatch (l : Str) (h : bulletMatch l ≠ none) :
    ∀ z, isBulletAt (l ++ z) = true := by
  intro z
  unfold bulletMatch at h
  cases hd : l.dropWhile pySpace with
  | nil => rw [hd] at h; simp at h
  | cons x u =>
    cases u with
    | nil => rw [hd] at h; simp at h
    | cons c rest =>
      rw [hd] at h
      by_cases hcond : x = '-' ∧ pySpace c
      · obtain ⟨hx, hc⟩ := hcond
        subst hx
        have hnotsp : ¬(pySpace '-' = true) := by simp [pySpace]
        have hdz : (l ++ z).dropWhile pySpace = '-' :: c :: (rest ++ z) := by
          rw [dropWhile_append_drop, hd]
          simp only [List.cons_append]
          rw [List.dropWhile_cons_of_neg hnotsp]
        unfold isBulletAt
        rw [hdz]
        simp [hc]
      · exfalso
        apply h
        show (if x = '-' ∧ pySpace c = true
          then some ((c :: rest).dropWhile pySpace) else none) = none
        rw [if_neg hcond]

theorem bulletMatch_isBulletAt (l : Str) (h : bulletMatch l ≠ none) :
    isBulletAt l = true := by
  have := isBulletAt_of_bulletMatch l h []
  simpa using this

/-- If a line of the text matches the per-line bullet pattern then the
multiline regex search succeeds on the text. -/
theorem bulletSearch_of_line :
    ∀ fuel s, s.length ≤ fuel →
      (∃ ln ∈ splitOnNl s, bulletMatch ln ≠ none) → bulletSearch s = true := by
  intro fuel
  induction fuel with
  | zero =>
    intro s hs ⟨ln, hln, hm⟩
    have : s = [] := List.length_eq_zero.mp (Nat.le_zero.mp hs)
    subst this
    simp only [splitOnNl, splitPred, List.mem_singleton] at hln
    subst hln
    simp [bulletMatch] at hm
  | succ n ih =>
    intro s hs ⟨ln, hln, hm⟩
    rcases newline_decomp s with hno | ⟨l, r, rfl, hl⟩
    · have : splitOnNl s = [s] := by
        apply splitPred_no_sep
        intro c hc
        simp only [decide_eq_false_iff_not]
        intro hcn
        exact hno (hcn ▸ hc)
      rw [this] at hln
      simp only [List.mem_singleton] at hln
      subst hln
      unfold bulletSearch
      rw [bulletMatch_isBulletAt _ hm]
      rfl
    · have hsp : splitOnNl (l ++ '\n' :: r) = l :: splitOnNl r := by
        apply splitPred_append_sep
        · intro c hc
          simp only [decide_eq_false_iff_not]
          intro hcn
          exact hl (hcn ▸ hc)
        · simp
      rw [hsp] at hln
      rcases List.mem_cons.mp hln with rfl | hln'
      · unfold bulletSearch
        rw [isBulletAt_of_bulletMatch ln hm ('\n' :: r)]
        rfl
      · have hr : bulletSearch r = true := by
          apply ih r _ ⟨ln, hln', hm⟩
          have : (l ++ '\n' :: r).length = l.length + r.length + 1 := by
            simp [List.length_append]
            omega
          omega
        unfold bulletSearch
        rw [suffixesAfterNewline_append l r hl]
        unfold bulletSearch at hr
        simp only [List.any_cons, Bool.or_eq_true] at *
        rcases hr with h | h
        · right; left; exact h
        · right; right; exact h

/-- The last piece of `splitOnNl` ends with the last character of the text,
provided that character is not a newline. -/
theorem splitOnNl_getLast :
    ∀ fuel s c, s.length ≤ fuel → s.getLast? = some c → c ≠ '\n' →
      ∃ l', (splitOnNl s).getLast? = some l' ∧ l'.getLast? = some c := by
  intro fuel
  induction fuel with
  | zero =>
    intro s c hs hc _
    have : s = [] := List.length_eq_zero.mp (Nat.le_zero.mp hs)
    subst this
    cases hc
  | succ n ih =>
    intro s c hs hc hcn
    rcases newline_decomp s with hno | ⟨l, r, rfl, hl⟩
    · have : splitOnNl s = [s] := by
        apply splitPred_no_sep
        intro x hx
        simp only [decide_eq_false_iff_not]
        intro hxn
        exact hno (hxn ▸ hx)
      exact ⟨s, by rw [this]; rfl, hc⟩
    · have hsp : splitOnNl (l ++ '\n' :: r) = l :: splitOnNl r := by
        apply splitPred_append_sep
        · intro x hx
          simp only [decide_eq_false_iff_not]
          intro hxn
          exact hl (hxn ▸ hx)
        · simp
      have hrne : r ≠ [] := by
        intro hr
        subst hr
        rw [List.getLast?_append_of_ne_nil l (by simp : ['\n'] ≠ ([] : Str))] at hc
        simp at hc
        exact hcn hc.symm
      have hcr : r.getLast? = some c := by
        rw [List.getLast?_append_of_ne_nil l (by simp : '\n' :: r ≠ ([] : Str))] at hc
        have hstep : ('\n' :: r : Str).getLast? = r.getLast? :=
          List.getLast?_append_of_ne_nil ['\n'] hrne
        rwa [hstep] at hc
      obtain ⟨l', hl', hl'c⟩ := ih r c (by simp [List.length_append] at hs ⊢; omega) hcr hcn
      refine ⟨l', ?_, hl'c⟩
      rw [hsp]
      have hstep2 : (l :: splitOnNl r : List Str).getLast? = (splitOnNl r).getLast? :=
        List.getLast?_append_of_ne_nil [l] (splitPred_ne_nil _ r)
      rw [hstep2]
      exact hl'

/-! ### Bullet loop lemmas -/

theorem mem_joinNl_of_mem : ∀ ls (x : Str), x ∈ ls → ∀ c ∈ x, c ∈ joinNl ls := by
  intro ls
  induction ls with
  | nil => intro x h; cases h
  | cons l rest ih =>
    intro x hx c hc
    cases rest with
    | nil =>
      simp only [List.mem_singleton] at hx
      subst hx
      exact hc
    | cons l2 rest2 =>
      simp only [joinNl, List.mem_append, List.mem_cons]
      rcases List.mem_cons.mp hx with rfl | hx'
      · left; exact hc
      · right; right; exact ih x hx' c hc

theorem strip_rstrip_ne_nil (b : Str) (c : Char) (hc : c ∈ b) (hcf : pySpace c = false) :
    strip (rstrip b) ≠ [] :=
  strip_ne_nil_of_mem _ c (mem_rstrip_of_false _ _ hc hcf) hcf

/-- Appending one line with a non-whitespace character to the current block
and flushing yields a surviving (non-blank) block. -/
theorem flush_block_survives (current : List Str) (x : Str) (c : Char)
    (hc : c ∈ x) (hcf : pySpace c = false) :
    strip (rstrip (joinNl (current ++ [x]))) ≠ [] := by
  apply strip_rstrip_ne_nil _ c _ hcf
  exact mem_joinNl_of_mem _ x (by simp) c hc

/-- A non-empty suffix of a list shares its last element. -/
theorem getLast?_dropWhile (p : Char → Bool) (l : Str) (h : l.dropWhile p ≠ []) :
    (l.dropWhile p).getLast? = l.getLast? := by
  conv_rhs => rw [← List.takeWhile_append_dropWhile p l]
  rw [List.getLast?_append_of_ne_nil _ h]

/-- A bullet line ending in a non-whitespace character has that character
inside its regex group. -/
theorem bulletMatch_group_mem (l : Str) (r : Str) (c : Char)
    (hm : bulletMatch l = some r) (hl : l.getLast? = some c) (hcf : pySpace c = false) :
    c ∈ r := by
  unfold bulletMatch at hm
  cases hd : l.dropWhile pySpace with
  | nil => rw [hd] at hm; cases hm
  | cons x u =>
    cases u with
    | nil => rw [hd] at hm; cases hm
    | cons d rest =>
      rw [hd] at hm
      have hm2 : (if x = '-' ∧ pySpace d = true
          then some ((d :: rest).dropWhile pySpace) else none) = some r := hm
      by_cases hcond : x = '-' ∧ pySpace d
      · rw [if_pos hcond] at hm2
        cases hm2
        have hne : l.dropWhile pySpace ≠ [] := by rw [hd]; simp
        have h1 : (x :: d :: rest : Str).getLast? = some c := by
          rw [← hd, getLast?_dropWhile pySpace l hne]; exact hl
        have h2 : (d :: rest : Str).getLast? = some c := by
          have hstep : (x :: d :: rest : Str).getLast? = (d :: rest : Str).getLast? :=
            List.getLast?_append_of_ne_nil [x] (by simp)
          rwa [hstep] at h1
        have h3 : (d :: rest : Str).dropWhile pySpace ≠ [] := by
          intro hnil
          have hcmem : c ∈ (d :: rest : Str).dropWhile pySpace :=
            mem_dropWhile_of_false _ _ _ (List.mem_of_mem_getLast? h2) hcf
          rw [hnil] at hcmem
          cases hcmem
        have h4 : ((d :: rest : Str).dropWhile pySpace).getLast? = some c := by
          rw [getLast?_dropWhile pySpace _ h3]; exact h2
        exact List.mem_of_mem_getLast? h4
      · rw [if_neg hcond] at hm2; cases hm2

/-- Main loop invariant: if the last line ends in a non-whitespace character
and either some line is a bullet line or a bullet has been seen, the loop
yields at least one block that survives the blank filter. -/
theorem bulletLoop_survivor :
    ∀ ls answers current inB,
      (∃ l' c, ls.getLast? = some l' ∧ l'.getLast? = some c ∧ pySpace c = false) →
      ((∃ ln ∈ ls, bulletMatch ln ≠ none) ∨ inB = true) →
      ∃ b ∈ bulletLoop ls answers current inB, strip b ≠ [] := by
  intro ls
  induction ls with
  | nil =>
    intro answers current inB ⟨l', c, hl', _⟩ _
    cases hl'
  | cons ln rest ih =>
    intro answers current inB hlast hb
    obtain ⟨l', c, hl', hc, hcf⟩ := hlast
    cases hrest : rest with
    | nil =>
      subst hrest
      simp only [show ([ln] : List Str).getLast? = some ln from rfl, Option.some.injEq] at hl'
      subst hl'
      cases hm : bulletMatch ln with
      | some r =>
        have hcr : c ∈ r := bulletMatch_group_mem ln r c hm hc hcf
        simp only [bulletLoop, hm]
        refine ⟨rstrip (joinNl [r]), by simp, ?_⟩
        show strip (rstrip (joinNl ([] ++ [r]))) ≠ []
        exact flush_block_survives [] r c hcr hcf
      | none =>
        rcases hb with ⟨ln2, hln2, hm2⟩ | hib
        · simp only [List.mem_singleton] at hln2
          subst hln2
          exact absurd hm hm2
        · subst hib
          simp only [bulletLoop, hm, if_pos rfl]
          have hmem : c ∈ rstrip ln := mem_rstrip_of_false _ _ (List.mem_of_mem_getLast? hc) hcf
          refine ⟨rstrip (joinNl (current ++ [rstrip ln])), ?_, ?_⟩
          · have : current ++ [rstrip ln] ≠ [] := by simp
            simp [bulletLoop, this]
          · exact flush_block_survives current (rstrip ln) c hmem hcf
    | cons l2 rest2 =>
      have hrne : rest ≠ [] := by rw [hrest]; simp
      have hlast' : ∃ l' c, rest.getLast? = some l' ∧ l'.getLast? = some c ∧ pySpace c = false := by
        refine ⟨l', c, ?_, hc, hcf⟩
        have hstep : (ln :: rest : List Str).getLast? = rest.getLast? :=
          List.getLast?_append_of_ne_nil [ln] hrne
        rwa [hstep] at hl'
      rw [← hrest]
      cases hm : bulletMatch ln with
      | some r =>
        simp only [bulletLoop, hm]
        exact ih _ [r] true hlast' (Or.inr rfl)
      | none =>
        have hb' : (∃ ln2 ∈ rest, bulletMatch ln2 ≠ none) ∨ inB = true := by
          rcases hb with ⟨ln2, hln2, hm2⟩ | hib
          · rcases List.mem_cons.mp hln2 with rfl | h'
            · exact absurd hm hm2
            · exact Or.inl ⟨ln2, h', hm2⟩
          · exact Or.inr hib
        simp only [bulletLoop, hm]
        by_cases hib : inB
        · rw [if_pos hib]
          exact ih _ (current ++ [rstrip ln]) inB hlast' hb'
        · rw [if_neg hib]
          exact ih _ current inB hlast' hb'

/-- C3: a cell one of whose lines opens a bullet (optional leading
whitespace, a hyphen, at least one whitespace character) is segmented
entirely by the bullet-block rule — each bullet line starts a new
alternative from the rest of that line, later non-bullet lines are
newline-joined onto the current alternative, blank blocks are dropped — and
the inline (hyphen/semicolon/comma) rules are never applied to such a
cell. -/
theorem C3_bullet_block_cells (cell : Str)
    (h : ∃ ln ∈ splitlines (strip (normNl cell)), bulletMatch ln ≠ none) :
    answersFromCell (some cell) = splitLineBulletsMultiline (strip (normNl cell)) ∧
      splitLineBulletsMultiline (strip (normNl cell)) ≠ [] := by
  obtain ⟨ln, hln, hm⟩ := h
  set txt := strip (normNl cell) with htxt
  have htxtne : txt ≠ [] := by
    intro hnil
    rw [hnil] at hln
    simp [splitlines] at hln
  have hrs : rstrip txt = txt := rstrip_strip (normNl cell)
  obtain ⟨c, hgl⟩ : ∃ c, txt.getLast? = some c := by
    cases hgl : txt.getLast? with
    | none => exact absurd (List.getLast?_eq_none_iff.mp hgl) htxtne
    | some c => exact ⟨c, rfl⟩
  have hc : pySpace c = false := getLast_nonspace txt c hrs hgl
  have hcn : c ≠ '\n' := by
    intro hcc
    rw [hcc] at hc
    simp [pySpace] at hc
  have hsl : splitlines txt = splitOnNl txt := by
    unfold splitlines
    rw [if_neg htxtne, if_neg (by rw [hgl]; intro hh; exact hcn (Option.some.inj hh))]
  rw [hsl] at hln
  have hsearch : bulletSearch txt = true :=
    bulletSearch_of_line txt.length txt (le_refl _) ⟨ln, hln, hm⟩
  obtain ⟨l', hl', hl'c⟩ :=
    splitOnNl_getLast txt.length txt c (le_refl _) hgl hcn
  obtain ⟨b, hb, hsb⟩ :=
    bulletLoop_survivor (splitOnNl txt) [] [] false ⟨l', c, hl', hl'c, hc⟩
      (Or.inl ⟨ln, hln, hm⟩)
  have hguard : strip txt ≠ [] := strip_strip_ne_nil (normNl cell) htxtne
  have hbul : splitLineBulletsMultiline txt =
      (bulletLoop (splitOnNl txt) [] [] false).filter (fun a => strip a ≠ []) := by
    unfold splitLineBulletsMultiline
    rw [if_neg hguard, if_pos hsearch, hsl]
  have hne : splitLineBulletsMultiline txt ≠ [] := by
    rw [hbul]
    exact List.ne_nil_of_mem (List.mem_filter.mpr ⟨hb, by simpa using hsb⟩)
  refine ⟨?_, hne⟩
  show answersFromCell (some cell) = splitLineBulletsMultiline txt
  simp only [answersFromCell, ← htxt]
  rw [if_pos hne]

/-- Witness for C3 at the spec's bullet example: two alternatives, the first
keeping its multi-line body verbatim. -/
theorem C3_bullet_block_cells_witness :
    answersFromCell (some "- D-tejsav:\n  COOH\n    |\n   H-C-OH\n- L-tejsav".data) =
      ["D-tejsav:\n  COOH\n    |\n   H-C-OH".data, "L-tejsav".data] := by
  have h := C3_bullet_block_cells "- D-tejsav:\n  COOH\n    |\n   H-C-OH\n- L-tejsav".data
    (by refine ⟨"- D-tejsav:".data, ?_, ?_⟩ <;> decide)
  exact h.1.trans (by decide)

/-- C4: in the lenient (kemia) variant, when neither the bullet rule nor the
inline-hyphen rule applies and the cell contains a semicolon or a comma, the
cell is split on the character class `[;,]`, the fragments trimmed and the
empty ones dropped. -/
theorem C4_inline_class_split (cell : Str)
    (h1 : bulletSearch (strip (normNl cell)) = false)
    (h2 : findWsHyphenSplit (strip (normNl cell)) = none)
    (h3 : ';' ∈ strip (normNl cell) ∨ ',' ∈ strip (normNl cell)) :
    answersFromCellK (some cell) =
      ((splitPred (fun c => c = ';' || c = ',') (strip (normNl cell))).map strip).filter
        (· ≠ []) := by
  simp only [answersFromCellK]
  rw [if_neg (by rw [h1]; simp), if_neg (by rw [h2]; simp), if_pos h3]

/-- Witness for C4 at the spec's comma example. -/
theorem C4_inline_class_split_witness :
    answersFromCellK (some "Agaróz gél, agaróz".data) =
      ["Agaróz gél".data, "agaróz".data] := by
  have h := C4_inline_class_split "Agaróz gél, agaróz".data
    (by decide) (by decide) (by decide)
  exact h.trans (by decide)

/-! ### Lemmas about separator-free cells (for C5) -/

theorem dropWhile_all_false (p : Char → Bool) (s : Str)
    (h : ∀ c ∈ s, p c = false) : s.dropWhile p = s := by
  cases s with
  | nil => rfl
  | cons c t =>
    have hc : ¬(p c = true) := by
      rw [h c (List.mem_cons_self _ _)]
      simp
    exact List.dropWhile_cons_of_neg hc

theorem strip_all_nonspace (s : Str) (h : ∀ c ∈ s, pySpace c = false) :
    strip s = s := by
  unfold strip lstrip rstrip
  rw [dropWhile_all_false pySpace s h,
    dropWhile_all_false pySpace s.reverse (fun c hc => h c (List.mem_reverse.mp hc)),
    List.reverse_reverse]

theorem normNl_no_cr (s : Str) (h : '\r' ∉ s) : normNl s = s := by
  induction s with
  | nil => rfl
  | cons c t ih =>
    simp only [List.mem_cons, not_or] at h
    have hc : ¬(c = '\r') := fun hc => h.1 hc.symm
    cases t with
    | nil =>
      have hunf : normNl [c] = if c = '\r' then ['\n'] else c :: normNl [] := rfl
      rw [hunf, if_neg hc]
      rfl
    | cons d u =>
      have hunf : normNl (c :: d :: u) =
          if c = '\r' then
            (if d = '\n' then '\n' :: normNl u else '\n' :: normNl (d :: u))
          else c :: normNl (d :: u) := rfl
      rw [hunf, if_neg hc, ih h.2]

theorem findWsHyphenSplit_all_nonspace (s : Str) (h : ∀ c ∈ s, pySpace c = false) :
    findWsHyphenSplit s = none := by
  induction s with
  | nil => rfl
  | cons c t ih =>
    have hc : ¬(pySpace c = true) := by rw [h c (List.mem_cons_self _ _)]; simp
    simp only [findWsHyphenSplit, wsHyphenHere, if_neg hc]
    rw [ih (fun x hx => h x (List.mem_cons_of_mem _ hx))]
    rfl

theorem bulletSearch_all_nonspace (s : Str) (h : ∀ c ∈ s, pySpace c = false) :
    bulletSearch s = false := by
  have hnl : '\n' ∉ s := by
    intro hmem
    have := h '\n' hmem
    simp [pySpace] at this
  have hsuf : suffixesAfterNewline s = [] := suffixesAfterNewline_no_nl s hnl
  have hat : isBulletAt s = false := by
    unfold isBulletAt
    rw [dropWhile_all_false pySpace s h]
    cases s with
    | nil => rfl
    | cons x u =>
      cases u with
      | nil => rfl
      | cons c2 v =>
        have := h c2 (by simp)
        simp [this]
  unfold bulletSearch
  rw [hat, hsuf]
  rfl

/-! ### Slash transparency (for C5)

The claim is that a forward slash is never a split point under any rule.
This is formalised as substitution transparency: replacing every `/` by an
arbitrary ordinary character — one that is not whitespace and none of the
separator characters `-`, `;`, `,` — commutes with both segmenter variants.
A segmenter that used `/` as a split point under any rule would violate this
(the slash-free image would come back in fewer pieces), so the theorem pins
down that `/` is treated exactly like any ordinary letter. -/

/-- Substitution replacing every forward slash by the character `c0`. -/
def subSlash (c0 : Char) (c : Char) : Char := if c = '/' then c0 else c

/-- The replacement character is ordinary: not whitespace and none of the
separator characters the segmentation rules test for. -/
def okSub (c0 : Char) : Prop :=
  pySpace c0 = false ∧ c0 ≠ '-' ∧ c0 ≠ ';' ∧ c0 ≠ ','

theorem okSub_ne_space (c0 d : Char) (h0 : okSub c0) (hd : pySpace d = true) :
    c0 ≠ d := by
  intro h
  obtain ⟨h1, -, -, -⟩ := h0
  rw [h, hd] at h1
  exact Bool.noConfusion h1

theorem subSlash_pySpace (c0 : Char) (h0 : okSub c0) (c : Char) :
    pySpace (subSlash c0 c) = pySpace c := by
  unfold subSlash
  by_cases hc : c = '/'
  · rw [if_pos hc, hc, h0.1]
    decide
  · rw [if_neg hc]

theorem subSlash_eq_iff (c0 d : Char) (hd : d ≠ '/') (hc0 : c0 ≠ d) (c : Char) :
    subSlash c0 c = d ↔ c = d := by
  unfold subSlash
  by_cases hc : c = '/'
  · rw [if_pos hc, hc]
    constructor
    · intro h; exact absurd h hc0
    · intro h; exact absurd h.symm hd
  · rw [if_neg hc]

theorem subSlash_mem_set_iff (c0 : Char) (cs : List Char) (hs : '/' ∉ cs)
    (hc0 : c0 ∉ cs) (c : Char) : subSlash c0 c ∈ cs ↔ c ∈ cs := by
  unfold subSlash
  by_cases hc : c = '/'
  · rw [if_pos hc, hc]
    constructor
    · intro h; exact absurd h hc0
    · intro h; exact absurd h hs
  · rw [if_neg hc]

theorem mem_map_subSlash_iff (c0 d : Char) (hd : d ≠ '/') (hc0 : c0 ≠ d) (s : Str) :
    d ∈ s.map (subSlash c0) ↔ d ∈ s := by
  rw [List.mem_map]
  constructor
  · rintro ⟨a, ha, he⟩
    rw [← (subSlash_eq_iff c0 d hd hc0 a).mp he]
    exact ha
  · intro h
    exact ⟨d, h, (subSlash_eq_iff c0 d hd hc0 d).mpr rfl⟩

/-- Commutation of `dropWhile` with a character map that preserves the
predicate. -/
theorem dropWhile_map_comm (f : Char → Char) (p : Char → Bool)
    (h : ∀ c, p (f c) = p c) :
    ∀ s : Str, (s.map f).dropWhile p = (s.dropWhile p).map f := by
  intro s
  induction s with
  | nil => rfl
  | cons c t ih =>
    by_cases hc : p c = true
    · rw [List.map_cons, List.dropWhile_cons_of_pos (by rw [h c]; exact hc),
        List.dropWhile_cons_of_pos hc, ih]
    · rw [List.map_cons, List.dropWhile_cons_of_neg (by rw [h c]; exact hc),
        List.dropWhile_cons_of_neg hc, List.map_cons]

/-- Commutation of `filter` with a list map that preserves the predicate. -/
theorem filter_map_comm (f : Str → Str) (p q : Str → Bool)
    (h : ∀ a, p (f a) = q a) :
    ∀ l : List Str, (l.map f).filter p = (l.filter q).map f := by
  intro l
  induction l with
  | nil => rfl
  | cons a t ih =>
    rw [List.map_cons, List.filter_cons, List.filter_cons, h a]
    cases hq : q a
    · rw [ih]
      simp
    · rw [ih]
      simp

theorem rstrip_map (c0 : Char) (h0 : okSub c0) (s : Str) :
    rstrip (s.map (subSlash c0)) = (rstrip s).map (subSlash c0) := by
  unfold rstrip
  rw [List.reverse_map, dropWhile_map_comm (subSlash c0) pySpace (subSlash_pySpace c0 h0),
    List.reverse_map]

theorem strip_map (c0 : Char) (h0 : okSub c0) (s : Str) :
    strip (s.map (subSlash c0)) = (strip s).map (subSlash c0) := by
  unfold strip lstrip
  rw [dropWhile_map_comm (subSlash c0) pySpace (subSlash_pySpace c0 h0),
    rstrip_map c0 h0]

theorem stripSet_map (c0 : Char) (cs : List Char) (hs : '/' ∉ cs) (hc0 : c0 ∉ cs)
    (s : Str) : stripSet cs (s.map (subSlash c0)) = (stripSet cs s).map (subSlash c0) := by
  unfold stripSet
  have hp : ∀ c, (decide (subSlash c0 c ∈ cs)) = (decide (c ∈ cs)) := fun c =>
    decide_eq_decide.mpr (subSlash_mem_set_iff c0 cs hs hc0 c)
  rw [dropWhile_map_comm (subSlash c0) _ hp, List.reverse_map,
    dropWhile_map_comm (subSlash c0) _ hp, List.reverse_map]

theorem normNl_map_fuel (c0 : Char) (h0 : okSub c0) :
    ∀ fuel (s : Str), s.length ≤ fuel →
      normNl (s.map (subSlash c0)) = (normNl s).map (subSlash c0) := by
  intro fuel
  induction fuel with
  | zero =>
    intro s hs
    have : s = [] := List.length_eq_zero.mp (Nat.le_zero.mp hs)
    subst this
    rfl
  | succ n ih =>
    intro s hs
    have hcr : ∀ c, subSlash c0 c = '\r' ↔ c = '\r' := fun c =>
      subSlash_eq_iff c0 '\r' (by decide) (okSub_ne_space c0 '\r' h0 (by decide)) c
    have hnl : ∀ c, subSlash c0 c = '\n' ↔ c = '\n' := fun c =>
      subSlash_eq_iff c0 '\n' (by decide) (okSub_ne_space c0 '\n' h0 (by decide)) c
    have hunfNil : ∀ x : Char, normNl [x] = if x = '\r' then ['\n'] else x :: normNl [] :=
      fun x => rfl
    have hunfCr : ∀ (x : Char) (xs : Str), normNl ('\r' :: x :: xs) =
        if x = '\n' then '\n' :: normNl xs else '\n' :: normNl (x :: xs) := fun x xs => rfl
    have hunf : ∀ (x y : Char) (xs : Str), x ≠ '\r' →
        normNl (x :: y :: xs) = x :: normNl (y :: xs) := by
      intro x y xs hx
      have hu : normNl (x :: y :: xs) =
          if x = '\r' then
            (if y = '\n' then '\n' :: normNl xs else '\n' :: normNl (y :: xs))
          else x :: normNl (y :: xs) := rfl
      rw [hu, if_neg hx]
    cases s with
    | nil => rfl
    | cons c t =>
      simp only [List.length_cons] at hs
      by_cases hc : c = '\r'
      · subst hc
        have hsr : subSlash c0 '\r' = '\r' := rfl
        cases t with
        | nil => rfl
        | cons d u =>
          rw [List.map_cons, List.map_cons, hsr]
          by_cases hd : d = '\n'
          · subst hd
            have hsn : subSlash c0 '\n' = '\n' := rfl
            rw [hsn, hunfCr _ _, hunfCr _ _, if_pos rfl, if_pos rfl,
              ih u (by simp only [List.length_cons] at hs; omega), List.map_cons]
            rfl
          · rw [hunfCr _ _, hunfCr _ _, if_neg (fun hh => hd ((hnl d).mp hh)), if_neg hd]
            rw [show (subSlash c0 d :: u.map (subSlash c0) : Str) =
              (d :: u).map (subSlash c0) from rfl]
            rw [ih (d :: u) (by simp only [List.length_cons] at hs ⊢; omega), List.map_cons]
            rfl
      · have hsc : subSlash c0 c ≠ '\r' := fun hh => hc ((hcr c).mp hh)
        cases t with
        | nil =>
          rw [show (([c] : Str).map (subSlash c0)) = [subSlash c0 c] from rfl,
            hunfNil, hunfNil, if_neg hsc, if_neg hc, List.map_cons]
          rfl
        | cons d u =>
          rw [List.map_cons, List.map_cons, hunf _ _ _ hsc, hunf _ _ _ hc]
          rw [show (subSlash c0 d :: u.map (subSlash c0) : Str) =
            (d :: u).map (subSlash c0) from rfl]
          rw [ih (d :: u) (by simp only [List.length_cons] at hs ⊢; omega), List.map_cons]

theorem normNl_map (c0 : Char) (h0 : okSub c0) (s : Str) :
    normNl (s.map (subSlash c0)) = (normNl s).map (subSlash c0) :=
  normNl_map_fuel c0 h0 s.length s (le_refl _)

theorem splitPred_map (c0 : Char) (p : Char → Bool) (hp : ∀ c, p (subSlash c0 c) = p c) :
    ∀ s : Str, splitPred p (s.map (subSlash c0)) =
      (splitPred p s).map (List.map (subSlash c0)) := by
  intro s
  induction s with
  | nil => rfl
  | cons c t ih =>
    rw [List.map_cons]
    have hunfT : ∀ (x : Char) (xs : Str), p x = true →
        splitPred p (x :: xs) = [] :: splitPred p xs := by
      intro x xs hx
      simp [splitPred, hx]
    have hunfF : ∀ (x : Char) (xs : Str), p x = false →
        splitPred p (x :: xs) =
          (match splitPred p xs with
          | l :: ls => (x :: l) :: ls
          | [] => [[x]]) := by
      intro x xs hx
      simp [splitPred, hx]
    cases hc : p c
    · rw [hunfF _ _ (by rw [hp c]; exact hc), hunfF _ _ hc, ih]
      cases hsp : splitPred p t with
      | nil => exact absurd hsp (splitPred_ne_nil p t)
      | cons l ls => simp
    · rw [hunfT _ _ (by rw [hp c]; exact hc), hunfT _ _ hc, ih]
      rfl

theorem splitOnNl_map (c0 : Char) (h0 : okSub c0) (s : Str) :
    splitOnNl (s.map (subSlash c0)) = (splitOnNl s).map (List.map (subSlash c0)) := by
  unfold splitOnNl
  apply splitPred_map
  intro c
  exact decide_eq_decide.mpr
    (subSlash_eq_iff c0 '\n' (by decide) (okSub_ne_space c0 '\n' h0 (by decide)) c)

theorem splitlines_map (c0 : Char) (h0 : okSub c0) (s : Str) :
    splitlines (s.map (subSlash c0)) = (splitlines s).map (List.map (subSlash c0)) := by
  unfold splitlines
  by_cases hs : s = []
  · subst hs; rfl
  · rw [if_neg (by rwa [List.map_eq_nil_iff]), if_neg hs]
    have hgl : ((s.map (subSlash c0)).getLast? = some '\n') ↔ (s.getLast? = some '\n') := by
      rw [List.getLast?_map]
      cases hg : s.getLast? with
      | none => simp
      | some c =>
        simp only [Option.map_some', Option.some.injEq]
        exact subSlash_eq_iff c0 '\n' (by decide) (okSub_ne_space c0 '\n' h0 (by decide)) c
    by_cases hln : s.getLast? = some '\n'
    · rw [if_pos (hgl.mpr hln), if_pos hln, splitOnNl_map c0 h0, List.map_dropLast]
    · rw [if_neg (fun hh => hln (hgl.mp hh)), if_neg hln, splitOnNl_map c0 h0]

theorem joinNl_map (c0 : Char) :
    ∀ ls : List Str, joinNl (ls.map (List.map (subSlash c0))) =
      (joinNl ls).map (subSlash c0) := by
  intro ls
  induction ls with
  | nil => rfl
  | cons l rest ih =>
    cases rest with
    | nil => rfl
    | cons l2 rest2 =>
      have h1 : joinNl ((l :: l2 :: rest2).map (List.map (subSlash c0))) =
          l.map (subSlash c0) ++ '\n' :: joinNl ((l2 :: rest2).map (List.map (subSlash c0))) :=
        rfl
      have h2 : joinNl (l :: l2 :: rest2) = l ++ '\n' :: joinNl (l2 :: rest2) := rfl
      rw [h1, h2, ih, List.map_append, List.map_cons]
      rfl

theorem bulletMatch_map (c0 : Char) (h0 : okSub c0) (ln : Str) :
    bulletMatch (ln.map (subSlash c0)) = (bulletMatch ln).map (List.map (subSlash c0)) := by
  unfold bulletMatch
  rw [dropWhile_map_comm (subSlash c0) pySpace (subSlash_pySpace c0 h0)]
  cases hd : ln.dropWhile pySpace with
  | nil => rfl
  | cons x u =>
    cases u with
    | nil => rfl
    | cons c rest =>
      rw [List.map_cons, List.map_cons]
      have hcond : (subSlash c0 x = '-' ∧ pySpace (subSlash c0 c) = true) ↔
          (x = '-' ∧ pySpace c = true) := by
        rw [subSlash_eq_iff c0 '-' (by decide) h0.2.1 x, subSlash_pySpace c0 h0 c]
      show (if subSlash c0 x = '-' ∧ pySpace (subSlash c0 c) = true
          then some (((subSlash c0 c :: rest.map (subSlash c0)) : Str).dropWhile pySpace)
          else none) =
        Option.map (List.map (subSlash c0))
          (if x = '-' ∧ pySpace c = true
            then some (((c :: rest) : Str).dropWhile pySpace) else none)
      by_cases hxc : x = '-' ∧ pySpace c = true
      · rw [if_pos (hcond.mpr hxc), if_pos hxc]
        rw [show (subSlash c0 c :: rest.map (subSlash c0) : Str) =
          (c :: rest).map (subSlash c0) from rfl,
          dropWhile_map_comm (subSlash c0) pySpace (subSlash_pySpace c0 h0)]
        rfl
      · rw [if_neg (fun hh => hxc (hcond.mp hh)), if_neg hxc]
        rfl

theorem isBulletAt_map (c0 : Char) (h0 : okSub c0) (s : Str) :
    isBulletAt (s.map (subSlash c0)) = isBulletAt s := by
  unfold isBulletAt
  rw [dropWhile_map_comm (subSlash c0) pySpace (subSlash_pySpace c0 h0)]
  cases hd : s.dropWhile pySpace with
  | nil => rfl
  | cons x u =>
    cases u with
    | nil => rfl
    | cons c rest =>
      rw [List.map_cons, List.map_cons]
      show (decide (subSlash c0 x = '-') && pySpace (subSlash c0 c)) =
        (decide (x = '-') && pySpace c)
      rw [subSlash_pySpace c0 h0 c,
        decide_eq_decide.mpr (subSlash_eq_iff c0 '-' (by decide) h0.2.1 x)]

theorem suffixesAfterNewline_map (c0 : Char) (h0 : okSub c0) :
    ∀ s : Str, suffixesAfterNewline (s.map (subSlash c0)) =
      (suffixesAfterNewline s).map (List.map (subSlash c0)) := by
  intro s
  induction s with
  | nil => rfl
  | cons c t ih =>
    rw [List.map_cons]
    have hnl : subSlash c0 c = '\n' ↔ c = '\n' :=
      subSlash_eq_iff c0 '\n' (by decide) (okSub_ne_space c0 '\n' h0 (by decide)) c
    simp only [suffixesAfterNewline]
    by_cases hc : c = '\n'
    · rw [if_pos (hnl.mpr hc), if_pos hc, ih]
      rfl
    · rw [if_neg (fun hh => hc (hnl.mp hh)), if_neg hc, ih]

theorem any_isBulletAt_map (c0 : Char) (h0 : okSub c0) :
    ∀ ls : List Str, (ls.map (List.map (subSlash c0))).any isBulletAt = ls.any isBulletAt := by
  intro ls
  induction ls with
  | nil => rfl
  | cons l t ih =>
    simp only [List.map_cons, List.any_cons, ih, isBulletAt_map c0 h0]

theorem bulletSearch_map (c0 : Char) (h0 : okSub c0) (s : Str) :
    bulletSearch (s.map (subSlash c0)) = bulletSearch s := by
  unfold bulletSearch
  rw [isBulletAt_map c0 h0, suffixesAfterNewline_map c0 h0, any_isBulletAt_map c0 h0]

theorem bulletLoop_map (c0 : Char) (h0 : okSub c0) :
    ∀ (lines answers current : List Str) (inB : Bool),
      bulletLoop (lines.map (List.map (subSlash c0)))
        (answers.map (List.map (subSlash c0)))
        (current.map (List.map (subSlash c0))) inB =
      (bulletLoop lines answers current inB).map (List.map (subSlash c0)) := by
  intro lines
  induction lines with
  | nil =>
    intro answers current inB
    simp only [bulletLoop]
    by_cases hc : current = []
    · subst hc
      simp
    · rw [if_neg (by rwa [List.map_eq_nil_iff]), if_neg hc, List.map_append,
        joinNl_map c0, rstrip_map c0 h0]
      rfl
  | cons ln rest ih =>
    intro answers current inB
    simp only [bulletLoop]
    rw [bulletMatch_map c0 h0 ln]
    cases hm : bulletMatch ln with
    | some r =>
      simp only [Option.map_some']
      have hflush : (if current.map (List.map (subSlash c0)) = []
            then answers.map (List.map (subSlash c0))
            else answers.map (List.map (subSlash c0)) ++
              [rstrip (joinNl (current.map (List.map (subSlash c0))))]) =
          (if current = [] then answers
            else answers ++ [rstrip (joinNl current)]).map (List.map (subSlash c0)) := by
        by_cases hc : current = []
        · subst hc
          simp
        · rw [if_neg (by rwa [List.map_eq_nil_iff]), if_neg hc, List.map_append,
            joinNl_map c0, rstrip_map c0 h0]
          rfl
      rw [hflush]
      have hr : ([r.map (subSlash c0)] : List Str) = [r].map (List.map (subSlash c0)) := rfl
      rw [hr]
      exact ih _ [r] true
    | none =>
      simp only [Option.map_none']
      by_cases hib : inB = true
      · rw [if_pos hib, if_pos hib]
        have hcur : current.map (List.map (subSlash c0)) ++ [rstrip (ln.map (subSlash c0))] =
            (current ++ [rstrip ln]).map (List.map (subSlash c0)) := by
          rw [rstrip_map c0 h0, List.map_append]
          rfl
        rw [hcur]
        exact ih answers _ inB
      · rw [if_neg hib, if_neg hib]
        exact ih answers current inB

theorem wsHyphenHere_map (c0 : Char) (h0 : okSub c0) (c : Char) (t : Str) :
    wsHyphenHere (subSlash c0 c) (t.map (subSlash c0)) =
      (wsHyphenHere c t).map (List.map (subSlash c0)) := by
  unfold wsHyphenHere
  by_cases hc : pySpace c = true
  · rw [if_pos (by rw [subSlash_pySpace c0 h0]; exact hc), if_pos hc]
    cases t with
    | nil => rfl
    | cons x u =>
      cases u with
      | nil => rfl
      | cons d u2 =>
        rw [List.map_cons, List.map_cons]
        have hcond : (subSlash c0 x = '-' ∧ pySpace (subSlash c0 d) = true) ↔
            (x = '-' ∧ pySpace d = true) := by
          rw [subSlash_eq_iff c0 '-' (by decide) h0.2.1 x, subSlash_pySpace c0 h0 d]
        show (if subSlash c0 x = '-' ∧ pySpace (subSlash c0 d) = true
            then some (((subSlash c0 d :: u2.map (subSlash c0)) : Str).dropWhile pySpace)
            else none) =
          Option.map (List.map (subSlash c0))
            (if x = '-' ∧ pySpace d = true
              then some (((d :: u2) : Str).dropWhile pySpace) else none)
        by_cases hxd : x = '-' ∧ pySpace d = true
        · rw [if_pos (hcond.mpr hxd), if_pos hxd]
          rw [show (subSlash c0 d :: u2.map (subSlash c0) : Str) =
            (d :: u2).map (subSlash c0) from rfl,
            dropWhile_map_comm (subSlash c0) pySpace (subSlash_pySpace c0 h0)]
          rfl
        · rw [if_neg (fun hh => hxd (hcond.mp hh)), if_neg hxd]
          rfl
  · rw [if_neg (by rw [subSlash_pySpace c0 h0]; exact hc), if_neg hc]
    rfl

theorem findWsHyphenSplit_map (c0 : Char) (h0 : okSub c0) :
    ∀ s : Str, findWsHyphenSplit (s.map (subSlash c0)) =
      (findWsHyphenSplit s).map
        (fun p => (p.1.map (subSlash c0), p.2.map (subSlash c0))) := by
  intro s
  induction s with
  | nil => rfl
  | cons c t ih =>
    rw [List.map_cons]
    simp only [findWsHyphenSplit]
    rw [wsHyphenHere_map c0 h0 c t]
    cases hw : wsHyphenHere c t with
    | some aft => simp
    | none =>
      simp only [Option.map_none']
      rw [ih]
      cases hf : findWsHyphenSplit t with
      | none => rfl
      | some p => simp

theorem splitWsHyphenF_map (c0 : Char) (h0 : okSub c0) :
    ∀ fuel (s : Str), splitWsHyphenF fuel (s.map (subSlash c0)) =
      (splitWsHyphenF fuel s).map (List.map (subSlash c0)) := by
  intro fuel
  induction fuel with
  | zero => intro s; rfl
  | succ n ih =>
    intro s
    simp only [splitWsHyphenF]
    rw [findWsHyphenSplit_map c0 h0 s]
    cases hf : findWsHyphenSplit s with
    | none => rfl
    | some p =>
      cases p with
      | mk b a =>
        simp only [Option.map_some']
        rw [ih a]
        rfl

theorem splitWsHyphen_map (c0 : Char) (h0 : okSub c0) (s : Str) :
    splitWsHyphen (s.map (subSlash c0)) = (splitWsHyphen s).map (List.map (subSlash c0)) := by
  unfold splitWsHyphen
  rw [List.length_map]
  exact splitWsHyphenF_map c0 h0 _ s

theorem strip_map_ne_nil (c0 : Char) (h0 : okSub c0) (a : Str) :
    (decide (strip (a.map (subSlash c0)) ≠ [])) = (decide (strip a ≠ [])) := by
  apply decide_eq_decide.mpr
  rw [strip_map c0 h0, ne_eq, List.map_eq_nil_iff, ne_eq]

theorem map_ne_nil_decide (c0 : Char) (a : Str) :
    (decide (a.map (subSlash c0) ≠ [])) = (decide (a ≠ [])) := by
  apply decide_eq_decide.mpr
  rw [ne_eq, List.map_eq_nil_iff, ne_eq]

/-- Commutation for the filtered bullet pipeline shared by the two variants. -/
theorem bulletPipeline_map (c0 : Char) (h0 : okSub c0) (txt : Str) :
    (bulletLoop (splitlines (txt.map (subSlash c0))) [] [] false).filter
        (fun a => strip a ≠ []) =
      ((bulletLoop (splitlines txt) [] [] false).filter
        (fun a => strip a ≠ [])).map (List.map (subSlash c0)) := by
  rw [splitlines_map c0 h0]
  have hloop := bulletLoop_map c0 h0 (splitlines txt) [] [] false
  simp only [List.map_nil] at hloop
  rw [hloop]
  exact filter_map_comm (List.map (subSlash c0)) _ _ (strip_map_ne_nil c0 h0) _

theorem splitLineBulletsMultiline_map (c0 : Char) (h0 : okSub c0) (text : Str) :
    splitLineBulletsMultiline (text.map (subSlash c0)) =
      (splitLineBulletsMultiline text).map (List.map (subSlash c0)) := by
  unfold splitLineBulletsMultiline
  rw [strip_map c0 h0, bulletSearch_map c0 h0]
  by_cases hs : strip text = []
  · rw [hs]
    simp
  · rw [if_neg (by rwa [List.map_eq_nil_iff]), if_neg hs]
    by_cases hb : bulletSearch text = true
    · rw [if_pos hb, if_pos hb]
      exact bulletPipeline_map c0 h0 text
    · rw [if_neg hb, if_neg hb]
      rfl

theorem okSub_not_mem_semi (c0 : Char) (h0 : okSub c0) :
    c0 ∉ ([' ', ';'] : List Char) := by
  intro h
  rcases List.mem_cons.mp h with h | h
  · exact okSub_ne_space c0 ' ' h0 (by decide) h
  · rcases List.mem_cons.mp h with h | h
    · exact h0.2.2.1 h
    · cases h

theorem okSub_not_mem_comma (c0 : Char) (h0 : okSub c0) :
    c0 ∉ ([' ', ',', ';'] : List Char) := by
  intro h
  rcases List.mem_cons.mp h with h | h
  · exact okSub_ne_space c0 ' ' h0 (by decide) h
  · rcases List.mem_cons.mp h with h | h
    · exact h0.2.2.2 h
    · rcases List.mem_cons.mp h with h | h
      · exact h0.2.2.1 h
      · cases h

theorem map_stripSet_comm (c0 : Char) (cs : List Char) (hs : '/' ∉ cs)
    (hc0 : c0 ∉ cs) (l : List Str) :
    (l.map (List.map (subSlash c0))).map (stripSet cs) =
      (l.map (stripSet cs)).map (List.map (subSlash c0)) := by
  rw [List.map_map, List.map_map]
  apply List.map_congr_left
  intro a _
  exact stripSet_map c0 cs hs hc0 a

theorem splitInlineHyphenSemicolon_map (c0 : Char) (h0 : okSub c0) (text : Str) :
    splitInlineHyphenSemicolon (text.map (subSlash c0)) =
      (splitInlineHyphenSemicolon text).map (List.map (subSlash c0)) := by
  simp only [splitInlineHyphenSemicolon]
  rw [strip_map c0 h0]
  by_cases hu : strip text = []
  · rw [hu]
    simp
  · rw [if_neg (by rwa [List.map_eq_nil_iff]), if_neg hu, findWsHyphenSplit_map c0 h0]
    by_cases hf : (findWsHyphenSplit (strip text)).isSome = true
    · rw [if_pos (by rwa [Option.isSome_map']), if_pos hf, splitWsHyphen_map c0 h0,
        map_stripSet_comm c0 [' ', ';'] (by decide) (okSub_not_mem_semi c0 h0)]
      exact filter_map_comm (List.map (subSlash c0)) _ _ (map_ne_nil_decide c0) _
    · rw [if_neg (by rwa [Option.isSome_map']), if_neg hf]
      have hsemi : (';' ∈ (strip text).map (subSlash c0)) ↔ (';' ∈ strip text) :=
        mem_map_subSlash_iff c0 ';' (by decide) h0.2.2.1 (strip text)
      by_cases hse : ';' ∈ strip text
      · rw [if_pos (hsemi.mpr hse), if_pos hse,
          splitPred_map c0 _ (fun c => decide_eq_decide.mpr
            (subSlash_eq_iff c0 ';' (by decide) h0.2.2.1 c))]
        rw [show ((splitPred (fun c => decide (c = ';')) (strip text)).map
            (List.map (subSlash c0))).map strip =
          ((splitPred (fun c => decide (c = ';')) (strip text)).map strip).map
            (List.map (subSlash c0)) from by
          rw [List.map_map, List.map_map]
          apply List.map_congr_left
          intro a _
          exact strip_map c0 h0 a]
        exact filter_map_comm (List.map (subSlash c0)) _ _ (map_ne_nil_decide c0) _
      · rw [if_neg (fun hh => hse (hsemi.mp hh)), if_neg hse]
        rfl

theorem answersFromCell_map (c0 : Char) (h0 : okSub c0) (cell : Str) :
    answersFromCell (some (cell.map (subSlash c0))) =
      (answersFromCell (some cell)).map (List.map (subSlash c0)) := by
  simp only [answersFromCell]
  rw [normNl_map c0 h0, strip_map c0 h0, splitLineBulletsMultiline_map c0 h0]
  have hne : ¬(([] : List Str) ≠ []) := fun hh => hh rfl
  by_cases hb : splitLineBulletsMultiline (strip (normNl cell)) = []
  · rw [hb]
    simp only [List.map_nil]
    rw [if_neg hne, if_neg hne, splitInlineHyphenSemicolon_map c0 h0]
    by_cases hi : splitInlineHyphenSemicolon (strip (normNl cell)) = []
    · rw [hi]
      simp only [List.map_nil]
      rw [if_neg hne, if_neg hne]
      by_cases ht : strip (normNl cell) = []
      · rw [ht]
        simp
      · rw [if_pos (by rwa [ne_eq, List.map_eq_nil_iff]), if_pos ht]
        rfl
    · rw [if_pos (by rwa [ne_eq, List.map_eq_nil_iff]), if_pos hi]
  · rw [if_pos (by rwa [ne_eq, List.map_eq_nil_iff]), if_pos hb]

theorem answersFromCellK_map (c0 : Char) (h0 : okSub c0) (cell : Str) :
    answersFromCellK (some (cell.map (subSlash c0))) =
      (answersFromCellK (some cell)).map (List.map (subSlash c0)) := by
  simp only [answersFromCellK]
  rw [normNl_map c0 h0, strip_map c0 h0, bulletSearch_map c0 h0]
  by_cases hb : bulletSearch (strip (normNl cell)) = true
  · rw [if_pos hb, if_pos hb]
    exact bulletPipeline_map c0 h0 (strip (normNl cell))
  · rw [if_neg hb, if_neg hb, findWsHyphenSplit_map c0 h0]
    by_cases hf : (findWsHyphenSplit (strip (normNl cell))).isSome = true
    · rw [if_pos (by rwa [Option.isSome_map']), if_pos hf, splitWsHyphen_map c0 h0]
      rw [filter_map_comm (List.map (subSlash c0)) _ _ (strip_map_ne_nil c0 h0)]
      rw [map_stripSet_comm c0 [' ', ',', ';'] (by decide) (okSub_not_mem_comma c0 h0)]
      exact filter_map_comm (List.map (subSlash c0)) _ _ (map_ne_nil_decide c0) _
    · rw [if_neg (by rwa [Option.isSome_map']), if_neg hf]
      have hsemi : (';' ∈ (strip (normNl cell)).map (subSlash c0)) ↔
          (';' ∈ strip (normNl cell)) :=
        mem_map_subSlash_iff c0 ';' (by decide) h0.2.2.1 _
      have hcomma : (',' ∈ (strip (normNl cell)).map (subSlash c0)) ↔
          (',' ∈ strip (normNl cell)) :=
        mem_map_subSlash_iff c0 ',' (by decide) h0.2.2.2 _
      by_cases hsc : ';' ∈ strip (normNl cell) ∨ ',' ∈ strip (normNl cell)
      · rw [if_pos (by rw [hsemi, hcomma]; exact hsc), if_pos hsc,
          splitPred_map c0 _ (fun c => by
            rw [show (decide (subSlash c0 c = ';') || decide (subSlash c0 c = ',')) =
                (decide (c = ';') || decide (c = ',')) from by
              rw [decide_eq_decide.mpr (subSlash_eq_iff c0 ';' (by decide) h0.2.2.1 c),
                decide_eq_decide.mpr (subSlash_eq_iff c0 ',' (by decide) h0.2.2.2 c)]])]
        rw [show ((splitPred (fun c => decide (c = ';') || decide (c = ','))
            (strip (normNl cell))).map (List.map (subSlash c0))).map strip =
          ((splitPred (fun c => decide (c = ';') || decide (c = ','))
            (strip (normNl cell))).map strip).map (List.map (subSlash c0)) from by
          rw [List.map_map, List.map_map]
          apply List.map_congr_left
          intro a _
          exact strip_map c0 h0 a]
        exact filter_map_comm (List.map (subSlash c0)) _ _ (map_ne_nil_decide c0) _
      · rw [if_neg (by rw [hsemi, hcomma]; exact hsc), if_neg hsc]
        by_cases ht : strip (normNl cell) = []
        · rw [ht]
          simp
        · rw [if_pos (by rwa [ne_eq, List.map_eq_nil_iff]), if_pos ht]
          rfl

/-- C5: a forward slash is never a split point under any segmentation rule:
replacing every `/` by an arbitrary ordinary character (not whitespace, not
`-`, `;` or `,`) commutes with both segmenter variants, so `/` is treated
exactly like a plain letter — a segmenter that split on `/` anywhere would
return more pieces for the original than for the image.  In addition,
concretely: a slash-containing token survives the hyphen rule, the
semicolon rule and the comma rule intact within one alternative, and
`"kék/lila"` alone comes back as the single unsplit alternative. -/
theorem C5_slash_never_splits (c0 : Char) (h0 : pySpace c0 = false) (h1 : c0 ≠ '-')
    (h2 : c0 ≠ ';') (h3 : c0 ≠ ',') :
    (∀ cell : Str,
      answersFromCell (some (cell.map (subSlash c0))) =
        (answersFromCell (some cell)).map (List.map (subSlash c0)) ∧
      answersFromCellK (some (cell.map (subSlash c0))) =
        (answersFromCellK (some cell)).map (List.map (subSlash c0))) ∧
    answersFromCell (some "piros; kék/lila".data) = ["piros".data, "kék/lila".data] ∧
    answersFromCellK (some "piros, kék/lila".data) = ["piros".data, "kék/lila".data] ∧
    answersFromCell (some "piros - kék/lila".data) = ["piros".data, "kék/lila".data] ∧
    answersFromCell (some "kék/lila".data) = ["kék/lila".data] ∧
    answersFromCellK (some "kék/lila".data) = ["kék/lila".data] := by
  have h0' : okSub c0 := ⟨h0, h1, h2, h3⟩
  exact ⟨fun cell => ⟨answersFromCell_map c0 h0' cell, answersFromCellK_map c0 h0' cell⟩,
    by decide, by decide, by decide, by decide, by decide⟩

/-- Witness for C5: the commutation instantiated with the replacement
character `x` on the spec's slash example, plus one of the concrete
slash-survival conjuncts. -/
theorem C5_slash_never_splits_witness :
    answersFromCell (some ("kék/lila".data.map (subSlash 'x'))) =
      (answersFromCell (some "kék/lila".data)).map (List.map (subSlash 'x')) ∧
    answersFromCell (some "piros; kék/lila".data) = ["piros".data, "kék/lila".data] := by
  have h := C5_slash_never_splits 'x' (by decide) (by decide) (by decide) (by decide)
  exact ⟨(h.1 "kék/lila".data).1, h.2.1⟩

/-! ### Strip idempotence and deduplication lemmas -/

theorem strip_idem (s : Str) : strip (strip s) = strip s := by
  cases hs : strip s with
  | nil => rfl
  | cons c t =>
    have hc : pySpace c = false := strip_head_false s c (by rw [hs]; rfl)
    have hl : lstrip (c :: t) = c :: t :=
      List.dropWhile_cons_of_neg (by rw [hc]; simp)
    calc strip (c :: t) = rstrip (lstrip (c :: t)) := rfl
      _ = rstrip (c :: t) := by rw [hl]
      _ = c :: t := by rw [← hs]; exact rstrip_strip s

theorem dedupCIgo_nodup :
    ∀ l seen, ((dedupCIgo l seen).map (fun a => lower (strip a))).Nodup ∧
      ∀ x ∈ (dedupCIgo l seen).map (fun a => lower (strip a)), x ∉ seen := by
  intro l
  induction l with
  | nil => intro seen; exact ⟨List.nodup_nil, by simp [dedupCIgo]⟩
  | cons a rest ih =>
    intro seen
    simp only [dedupCIgo]
    by_cases hcond : lower (strip a) ≠ [] ∧ lower (strip a) ∉ seen
    · rw [if_pos hcond]
      obtain ⟨ihn, ihs⟩ := ih (lower (strip a) :: seen)
      constructor
      · simp only [List.map_cons, List.nodup_cons]
        refine ⟨?_, ihn⟩
        intro hmem
        rw [strip_idem] at hmem
        exact (ihs _ hmem) (List.mem_cons_self _ _)
      · intro x hx
        simp only [List.map_cons, List.mem_cons] at hx
        rcases hx with rfl | hx
        · rw [strip_idem]; exact hcond.2
        · intro hxs
          exact (ihs x hx) (List.mem_cons_of_mem _ hxs)
    · rw [if_neg hcond]
      exact ih seen

/-- The merged answer list after deduplication has no case-insensitive
duplicate. -/
theorem dedupCI_ciNodup (l : List Str) : ciNodup (dedupCI l) :=
  (dedupCIgo_nodup l []).1

/-- Deduplication keeps the original order and the (stripped) casing of the
kept occurrences: its output is a sublist of the stripped input. -/
theorem dedupCI_sublist (l : List Str) : (dedupCI l).Sublist (l.map strip) := by
  show (dedupCIgo l []).Sublist (l.map strip)
  generalize [] = seen
  induction l generalizing seen with
  | nil => simp [dedupCIgo]
  | cons a rest ih =>
    simp only [dedupCIgo, List.map_cons]
    by_cases hcond : lower (strip a) ≠ [] ∧ lower (strip a) ∉ seen
    · rw [if_pos hcond]
      exact List.Sublist.cons₂ _ (ih _)
    · rw [if_neg hcond]
      exact List.Sublist.cons _ (ih _)

/-! ### Dictionary lemmas -/

theorem qaKeys_append (qa : QaDict) (e : Str × List Str) :
    qaKeys (qa ++ [e]) = qaKeys qa ++ [e.1] := by
  simp [qaKeys]

theorem lookup?_none_not_mem :
    ∀ (qa : QaDict) k, lookup? qa k = none → k ∉ qaKeys qa := by
  intro qa
  induction qa with
  | nil => intro k _ h; simp [qaKeys] at h
  | cons e rest ih =>
    intro k hl hmem
    simp only [lookup?] at hl
    by_cases he : e.1 = k
    · rw [if_pos he] at hl; cases hl
    · rw [if_neg he] at hl
      simp only [qaKeys, List.map_cons, List.mem_cons] at hmem
      rcases hmem with rfl | hmem
      · exact he rfl
      · exact ih k hl hmem

theorem lookup?_some_mem :
    ∀ (qa : QaDict) k v, lookup? qa k = some v → k ∈ qaKeys qa := by
  intro qa
  induction qa with
  | nil => intro k v h; cases h
  | cons e rest ih =>
    intro k v hl
    simp only [lookup?] at hl
    by_cases he : e.1 = k
    · simp [qaKeys, he]
    · rw [if_neg he] at hl
      simp only [qaKeys, List.map_cons, List.mem_cons]
      exact Or.inr (ih k v hl)

theorem updateVal_keys :
    ∀ (qa : QaDict) k v, qaKeys (updateVal qa k v) = qaKeys qa := by
  intro qa
  induction qa with
  | nil => intro k v; rfl
  | cons e rest ih =>
    intro k v
    simp only [updateVal]
    by_cases he : e.1 = k
    · rw [if_pos he]; simp [qaKeys]
    · rw [if_neg he]
      simp only [qaKeys, List.map_cons]
      have hrec := ih k v
      simp only [qaKeys] at hrec
      rw [hrec]

theorem mem_updateVal_imp :
    ∀ (qa : QaDict) k v, (qaKeys qa).Nodup →
      ∀ kv ∈ updateVal qa k v, kv = (k, v) ∨ (kv ∈ qa ∧ kv.1 ≠ k) := by
  intro qa
  induction qa with
  | nil => intro k v _ kv hkv; cases hkv
  | cons e rest ih =>
    intro k v hnd kv hkv
    have hnd1 : e.1 ∉ qaKeys rest := by
      simp only [qaKeys, List.map_cons, List.nodup_cons] at hnd
      exact hnd.1
    have hnd2 : (qaKeys rest).Nodup := by
      simp only [qaKeys, List.map_cons, List.nodup_cons] at hnd
      exact hnd.2
    simp only [updateVal] at hkv
    by_cases he : e.1 = k
    · rw [if_pos he] at hkv
      rcases List.mem_cons.mp hkv with rfl | hkv'
      · left; rw [he]
      · right
        refine ⟨List.mem_cons_of_mem _ hkv', ?_⟩
        intro hk
        apply hnd1
        rw [he, ← hk]
        exact List.mem_map_of_mem _ hkv'
    · rw [if_neg he] at hkv
      rcases List.mem_cons.mp hkv with rfl | hkv'
      · right; exact ⟨List.mem_cons_self _ _, fun hk => he hk⟩
      · rcases ih k v hnd2 kv hkv' with h | ⟨hin, hne⟩
        · left; exact h
        · right; exact ⟨List.mem_cons_of_mem _ hin, hne⟩

/-- How many of the given rows bear the given question key. -/
def rowCount (rows : List (Str × Str)) (k : Str) : Nat :=
  (rows.filter (fun r => strip r.1 == k)).length

theorem rowCount_append (P : List (Str × Str)) (row : Str × Str) (k : Str) :
    rowCount (P ++ [row]) k = rowCount P k + (if strip row.1 = k then 1 else 0) := by
  unfold rowCount
  rw [List.filter_append]
  by_cases h : strip row.1 = k
  · simp [h]
  · simp [h]

theorem rowCount_zero (P : List (Str × Str)) (k : Str)
    (h : ∀ r ∈ P, strip r.1 ≠ k) : rowCount P k = 0 := by
  unfold rowCount
  rw [List.filter_eq_nil_iff.mpr]
  · rfl
  · intro r hr
    simp only [beq_iff_eq]
    exact h r hr

/-! ### The ingestion invariant (for C1) -/

/-- Invariant of the molsejt ingestion loop after processing `processed`:
keys are unique and non-empty, every key bearing row has put its key in, and
a key hit by at least two rows carries a case-insensitively deduplicated
answer list. -/
def qaInv (processed : List (Str × Str)) (qa : QaDict) : Prop :=
  (qaKeys qa).Nodup ∧
  (∀ kv ∈ qa, kv.1 ≠ []) ∧
  (∀ k, k ≠ [] → (∃ r ∈ processed, strip r.1 = k) → k ∈ qaKeys qa) ∧
  (∀ kv ∈ qa, 2 ≤ rowCount processed kv.1 → ciNodup kv.2)

theorem qaInv_step (P : List (Str × Str)) (qa : QaDict) (row : Str × Str)
    (h : qaInv P qa) : qaInv (P ++ [row]) (ingestStep qa row) := by
  obtain ⟨h1, h2, h3, h4⟩ := h
  unfold ingestStep
  by_cases hq : strip row.1 = []
  · rw [if_pos hq]
    refine ⟨h1, h2, ?_, ?_⟩
    · intro k hk ⟨r, hr, hrk⟩
      rcases List.mem_append.mp hr with hr | hr
      · exact h3 k hk ⟨r, hr, hrk⟩
      · simp only [List.mem_singleton] at hr
        subst hr
        rw [hq] at hrk
        exact absurd hrk.symm hk
    · intro kv hkv hcnt
      apply h4 kv hkv
      rw [rowCount_append, if_neg (by rw [hq]; exact fun he => h2 kv hkv he.symm)] at hcnt
      simpa using hcnt
  · rw [if_neg hq]
    cases hlk : lookup? qa (strip row.1) with
    | some v =>
      have hmemk : strip row.1 ∈ qaKeys qa := lookup?_some_mem qa _ v hlk
      refine ⟨?_, ?_, ?_, ?_⟩
      · rw [updateVal_keys]; exact h1
      · intro kv hkv
        rcases mem_updateVal_imp qa _ _ h1 kv hkv with rfl | ⟨hin, _⟩
        · exact hq
        · exact h2 kv hin
      · intro k hk hex
        rw [updateVal_keys]
        obtain ⟨r, hr, hrk⟩ := hex
        rcases List.mem_append.mp hr with hr | hr
        · exact h3 k hk ⟨r, hr, hrk⟩
        · simp only [List.mem_singleton] at hr
          subst hr
          rw [← hrk]
          exact hmemk
      · intro kv hkv hcnt
        rcases mem_updateVal_imp qa _ _ h1 kv hkv with rfl | ⟨hin, hne⟩
        · exact dedupCI_ciNodup _
        · apply h4 kv hin
          rw [rowCount_append, if_neg (fun he => hne he.symm)] at hcnt
          simpa using hcnt
    | none =>
      have hnm : strip row.1 ∉ qaKeys qa := lookup?_none_not_mem qa _ hlk
      refine ⟨?_, ?_, ?_, ?_⟩
      · rw [qaKeys_append]
        refine List.Nodup.append h1 (by simp) ?_
        intro a ha hb
        simp only [List.mem_singleton] at hb
        subst hb
        exact hnm ha
      · intro kv hkv
        rcases List.mem_append.mp hkv with hin | hnew
        · exact h2 kv hin
        · simp only [List.mem_singleton] at hnew
          subst hnew
          exact hq
      · intro k hk hex
        rw [qaKeys_append]
        obtain ⟨r, hr, hrk⟩ := hex
        rcases List.mem_append.mp hr with hr | hr
        · exact List.mem_append_left _ (h3 k hk ⟨r, hr, hrk⟩)
        · simp only [List.mem_singleton] at hr
          subst hr
          rw [← hrk]
          simp
      · intro kv hkv hcnt
        rcases List.mem_append.mp hkv with hin | hnew
        · apply h4 kv hin
          by_cases heq : strip row.1 = kv.1
          · exfalso
            apply hnm
            rw [heq]
            exact List.mem_map_of_mem _ hin
          · rw [rowCount_append, if_neg heq] at hcnt
            simpa using hcnt
        · simp only [List.mem_singleton] at hnew
          subst hnew
          exfalso
          have hz : rowCount P (strip row.1) = 0 := by
            apply rowCount_zero
            intro r hr hrk
            exact hnm (h3 (strip row.1) hq ⟨r, hr, hrk⟩)
          rw [rowCount_append, if_pos rfl, hz] at hcnt
          omega

theorem qaInv_fold :
    ∀ rows P qa, qaInv P qa → qaInv (P ++ rows) (rows.foldl ingestStep qa) := by
  intro rows
  induction rows with
  | nil => intro P qa h; simpa using h
  | cons r rest ih =>
    intro P qa h
    have h2 := ih (P ++ [r]) (ingestStep qa r) (qaInv_step P qa r h)
    rw [List.append_assoc] at h2
    simpa using h2

theorem buildQa_inv (rows : List (Str × Str)) : qaInv rows (buildQa rows) := by
  have h := qaInv_fold rows [] []
    ⟨by simp [qaKeys], by simp, by simp, by simp⟩
  simpa [buildQa] using h

/-! ### Ingestion with the plain `question,answer` header -/

/-- The plain two-column header. -/
def stdHeader : List Str := ["question".data, "answer".data]

theorem rowGet_std (q a : Str) :
    rowGet stdHeader [q, a] "question".data = q ∧
      rowGet stdHeader [q, a] "answer".data = a :=
  ⟨rfl, rfl⟩

/-- With the plain header, ingestion is the row loop plus the final
emptiness check. -/
theorem beolvas_std (cells : List (Str × Str)) (hne : cells ≠ []) :
    beolvas_csv_dict stdHeader (cells.map (fun r => [r.1, r.2])) =
      (if buildQa cells = [] then .error .noQaPairs else .ok (buildQa cells)) := by
  unfold beolvas_csv_dict
  rw [if_neg (by simpa using hne)]
  have hq : findColumn stdHeader ["question".data, "questions".data] =
      some "question".data := by decide
  have ha : findColumn stdHeader ["answer".data, "answers".data] =
      some "answer".data := by decide
  simp only [hq, ha]
  have hmap : (cells.map (fun r => [r.1, r.2])).map
      (fun r => (rowGet stdHeader r "question".data, rowGet stdHeader r "answer".data)) =
      cells := by
    rw [List.map_map]
    have hid : ∀ r : Str × Str,
        ((fun r => (rowGet stdHeader r "question".data, rowGet stdHeader r "answer".data)) ∘
          (fun r => [r.1, r.2])) r = r := fun r => rfl
    calc cells.map _ = cells.map id := List.map_congr_left (fun r _ => hid r)
      _ = cells := List.map_id cells
  rw [hmap]

/-- C9: a row with a non-empty question whose answer cell segments to no
alternative does not make ingestion fail: the key appears, mapped to the
empty sequence. -/
theorem C9_empty_answers_tolerated (qc ac : Str) (hq : strip qc ≠ [])
    (ha : answersFromCell (some ac) = []) :
    beolvas_csv_dict stdHeader [[qc, ac]] = .ok [(strip qc, [])] := by
  have hb := beolvas_std [(qc, ac)] (by simp)
  have hbuild : buildQa [(qc, ac)] = [(strip qc, [])] := by
    show ingestStep [] (qc, ac) = [(strip qc, [])]
    unfold ingestStep
    rw [if_neg hq]
    show [] ++ [(strip qc, answersFromCell (some ac))] = [(strip qc, [])]
    rw [ha]
    rfl
  have hrec : ([[qc, ac]] : List (List Str)) =
      [(qc, ac)].map (fun r => [r.1, r.2]) := rfl
  rw [hrec, hb, hbuild, if_neg (by simp)]

/-- Witness for C9: a whitespace-only answer cell. -/
theorem C9_empty_answers_tolerated_witness :
    beolvas_csv_dict stdHeader [["q".data, "   ".data]] = .ok [("q".data, [])] := by
  have h := C9_empty_answers_tolerated "q".data "   ".data (by decide) (by decide)
  exact h.trans (by decide)

/-- C6: two rows sharing a question key merge: the second row's segmented
answers are appended and the whole list is deduplicated case-insensitively,
keeping the first-seen, stripped casing in first-seen order (the deduplicated
list is a sublist of the stripped concatenation). -/
theorem C6_merge_on_duplicate_key (q1 a1 q2 a2 : Str) (hq : strip q2 = strip q1)
    (hne : strip q1 ≠ []) :
    beolvas_csv_dict stdHeader [[q1, a1], [q2, a2]] =
      .ok [(strip q1,
        dedupCI (answersFromCell (some a1) ++ answersFromCell (some a2)))] ∧
    ∀ l, (dedupCI l).Sublist (l.map strip) := by
  refine ⟨?_, dedupCI_sublist⟩
  have hb := beolvas_std [(q1, a1), (q2, a2)] (by simp)
  have hstep1 : ingestStep [] (q1, a1) = [(strip q1, answersFromCell (some a1))] := by
    unfold ingestStep
    rw [if_neg hne]
    rfl
  have hstep2 : ingestStep [(strip q1, answersFromCell (some a1))] (q2, a2) =
      [(strip q1, dedupCI (answersFromCell (some a1) ++ answersFromCell (some a2)))] := by
    unfold ingestStep
    show (if strip q2 = [] then _ else _) = _
    rw [hq, if_neg hne]
    show (match lookup? [(strip q1, answersFromCell (some a1))] (strip q1) with
      | some v => updateVal [(strip q1, answersFromCell (some a1))] (strip q1)
          (dedupCI (v ++ answersFromCell (some a2)))
      | none => [(strip q1, answersFromCell (some a1))] ++
          [(strip q1, answersFromCell (some a2))]) = _
    have hlk : lookup? [(strip q1, answersFromCell (some a1))] (strip q1) =
        some (answersFromCell (some a1)) := by
      unfold lookup?
      rw [if_pos rfl]
    rw [hlk]
    unfold updateVal
    rw [if_pos rfl]
  have hbuild : buildQa [(q1, a1), (q2, a2)] =
      [(strip q1, dedupCI (answersFromCell (some a1) ++ answersFromCell (some a2)))] := by
    show ingestStep (ingestStep [] (q1, a1)) (q2, a2) = _
    rw [hstep1, hstep2]
  have hrec : ([[q1, a1], [q2, a2]] : List (List Str)) =
      [(q1, a1), (q2, a2)].map (fun r => [r.1, r.2]) := rfl
  rw [hrec, hb, hbuild, if_neg (by simp)]

/-- Witness for C6 at the spec's merge example: cells `"a; b"` and `"b; c"`
under one key merge into `["a", "b", "c"]`. -/
theorem C6_merge_on_duplicate_key_witness :
    beolvas_csv_dict stdHeader [["q".data, "a; b".data], ["q".data, "b; c".data]] =
      .ok [("q".data, ["a".data, "b".data, "c".data])] := by
  have h := C6_merge_on_duplicate_key "q".data "a; b".data "q".data "b; c".data rfl
    (by decide)
  exact h.1.trans (by decide)

/-- C1 as stated is false on the code: a single-row question stores the raw
segmentation of its one cell, which is not case-insensitively deduplicated —
the cell `"a; A"` yields the value `["a", "A"]`, a case-insensitive
duplicate. -/
theorem C1_single_cell_dedup_counterexample :
    beolvas_csv_dict stdHeader [["q".data, "a; A".data]] =
      .ok [("q".data, ["a".data, "A".data])] ∧
    ¬ ciNodup ["a".data, "A".data] := by
  constructor
  · decide
  · decide

/-- C1 amended: the mapping returned by ingest has unique keys, and the value
of a key contributed by at least two rows is case-insensitively deduplicated;
a key seen in only one row keeps that cell's raw segmentation output. -/
theorem C1_keys_unique_merge_deduped :
    (∀ rows : List (Str × Str),
        (qaKeys (buildQa rows)).Nodup ∧
        ∀ kv ∈ buildQa rows, 2 ≤ rowCount rows kv.1 → ciNodup kv.2) ∧
    (∀ header records qa, beolvas_csv_dict header records = .ok qa →
        (qaKeys qa).Nodup) := by
  constructor
  · intro rows
    obtain ⟨h1, -, -, h4⟩ := buildQa_inv rows
    exact ⟨h1, h4⟩
  · intro header records qa h
    unfold beolvas_csv_dict at h
    split at h
    · cases h
    · split at h
      · dsimp only at h
        split at h
        · cases h
        · cases h
          exact (buildQa_inv _).1
      · cases h

/-- Witness for C1 amended: a key hit by two rows has a deduplicated value. -/
theorem C1_keys_unique_merge_deduped_witness :
    (qaKeys (buildQa [("q".data, "a".data), ("q".data, "b; a".data)])).Nodup ∧
      ciNodup ["a".data, "b".data] := by
  refine ⟨(C1_keys_unique_merge_deduped.1 _).1, ?_⟩
  exact (C1_keys_unique_merge_deduped.1 [("q".data, "a".data), ("q".data, "b; a".data)]).2
    ("q".data, ["a".data, "b".data]) (by decide) (by decide)

/-! ### Sampling lemmas (for C2) -/

theorem perm_get_eraseIdx :
    ∀ (l : List Str) i (h : i < l.length),
      List.Perm l (l.get ⟨i, h⟩ :: l.eraseIdx i) := by
  intro l
  induction l with
  | nil => intro i h; exact absurd h (Nat.not_lt_zero i)
  | cons a t ih =>
    intro i h
    cases i with
    | zero => exact List.Perm.refl _
    | succ j =>
      have hj : j < t.length := by simpa using h
      have hrec := ih j hj
      exact (hrec.cons a).trans (List.Perm.swap _ _ _)

theorem sampleGo_spec :
    ∀ n (rs : List Nat) (pool : List Str), n ≤ pool.length →
      (sampleGo rs n pool).length = n ∧
      (∀ x ∈ sampleGo rs n pool, x ∈ pool) ∧
      (pool.Nodup → (sampleGo rs n pool).Nodup) := by
  intro n
  induction n with
  | zero =>
    intro rs pool _
    exact ⟨rfl, by simp [sampleGo], by simp [sampleGo]⟩
  | succ m ih =>
    intro rs pool h
    cases pool with
    | nil => simp at h
    | cons c rest =>
      simp only [List.length_cons] at h
      have hilt : rs.headD 0 % (rest.length + 1) < (c :: rest).length := by
        simp only [List.length_cons]
        exact Nat.mod_lt _ (by omega)
      have hperm := perm_get_eraseIdx (c :: rest) _ hilt
      have hlen_e := List.length_eraseIdx_of_lt hilt
      have hm : m ≤ ((c :: rest).eraseIdx (rs.headD 0 % (rest.length + 1))).length := by
        rw [hlen_e]
        simp only [List.length_cons]
        omega
      obtain ⟨ihl, ihm, ihn⟩ := ih rs.tail _ hm
      have hgetD : (c :: rest).getD (rs.headD 0 % (rest.length + 1)) [] =
          (c :: rest).get ⟨rs.headD 0 % (rest.length + 1), hilt⟩ :=
        List.getD_eq_get _ _ hilt
      have hunf : sampleGo rs (m + 1) (c :: rest) =
          (c :: rest).getD (rs.headD 0 % (rest.length + 1)) [] ::
            sampleGo rs.tail m ((c :: rest).eraseIdx (rs.headD 0 % (rest.length + 1))) := rfl
      rw [hunf]
      refine ⟨by simp only [List.length_cons, ihl], ?_, ?_⟩
      · intro x hx
        rcases List.mem_cons.mp hx with rfl | hx'
        · rw [hgetD]; exact List.get_mem _ _ _
        · exact (List.eraseIdx_sublist _ _).mem (ihm x hx')
      · intro hnd
        have hnd' := hperm.nodup hnd
        obtain ⟨hnotin, hnde⟩ := List.nodup_cons.mp hnd'
        refine List.nodup_cons.mpr ⟨?_, ihn hnde⟩
        rw [hgetD]
        intro hmem
        exact hnotin (ihm _ hmem)

/-- C2: round selection fails with the InvalidArgument kind exactly when the
requested count exceeds the number of (distinct) keys; otherwise it returns
exactly `n` pairwise distinct keys of the mapping. -/
theorem C2_select_round (qa : QaDict) (n : Nat) (rand : List Nat)
    (hnd : (qaKeys qa).Nodup) :
    (valassz_kerdeseket qa n rand = .error .invalidArgument ↔ qa.length < n) ∧
    (∀ l, valassz_kerdeseket qa n rand = .ok l →
      l.length = n ∧ l.Nodup ∧ ∀ x ∈ l, x ∈ qaKeys qa) := by
  constructor
  · constructor
    · intro h
      by_contra hlt
      unfold valassz_kerdeseket at h
      rw [if_neg hlt] at h
      cases h
    · intro hlt
      unfold valassz_kerdeseket
      rw [if_pos hlt]
  · intro l h
    unfold valassz_kerdeseket at h
    by_cases hlt : qa.length < n
    · rw [if_pos hlt] at h; cases h
    · rw [if_neg hlt] at h
      cases h
      have hle : n ≤ (qaKeys qa).length := by
        have hk : (qaKeys qa).length = qa.length := by simp [qaKeys]
        omega
      obtain ⟨h1, h2, h3⟩ := sampleGo_spec n rand (qaKeys qa) hle
      exact ⟨h1, h3 hnd, h2⟩

/-- A twelve-key mapping for the C2 witness. -/
def qa12 : QaDict :=
  [("q01".data, ["a".data]), ("q02".data, ["a".data]), ("q03".data, ["a".data]),
   ("q04".data, ["a".data]), ("q05".data, ["a".data]), ("q06".data, ["a".data]),
   ("q07".data, ["a".data]), ("q08".data, ["a".data]), ("q09".data, ["a".data]),
   ("q10".data, ["a".data]), ("q11".data, ["a".data]), ("q12".data, ["a".data])]

/-- Witness for C2 at the spec's example: with exactly 12 keys, requesting 13
fails with InvalidArgument and requesting 12 returns 12 distinct keys. -/
theorem C2_select_round_witness :
    valassz_kerdeseket qa12 13 [] = .error .invalidArgument ∧
    ∃ l, valassz_kerdeseket qa12 12 [] = .ok l ∧ l.length = 12 ∧ l.Nodup ∧
      ∀ x ∈ l, x ∈ qaKeys qa12 := by
  have h13 := C2_select_round qa12 13 [] (by decide)
  have h12 := C2_select_round qa12 12 [] (by decide)
  refine ⟨h13.1.mpr (by decide), sampleGo [] 12 (qaKeys qa12), ?_, ?_⟩
  · unfold valassz_kerdeseket
    rw [if_neg (by decide)]
  · exact h12.2 _ (by unfold valassz_kerdeseket; rw [if_neg (by decide)])

/-- C10: a successful round selection leaves the mapping unchanged — the
state-transformer embedding of the call returns the argument dictionary
itself, with identical keys and identical lookups. -/
theorem C10_select_round_frame (qa : QaDict) (n : Nat) (rand : List Nat) (l : List Str)
    (h : (valassz_kerdeseket_run qa n rand).1 = .ok l) :
    (valassz_kerdeseket_run qa n rand).2 = qa ∧
    qaKeys (valassz_kerdeseket_run qa n rand).2 = qaKeys qa ∧
    ∀ k, lookup? (valassz_kerdeseket_run qa n rand).2 k = lookup? qa k :=
  ⟨rfl, rfl, fun _ => rfl⟩

/-- Witness for C10 on a concrete successful call. -/
theorem C10_select_round_frame_witness :
    (valassz_kerdeseket_run [("q".data, ["a".data])] 1 []).2 = [("q".data, ["a".data])] :=
  (C10_select_round_frame [("q".data, ["a".data])] 1 []
    (sampleGo [] 1 (qaKeys [("q".data, ["a".data])])) (by decide)).1

/-! ### Lemmas for the strict-pattern variant (C7, C8) -/

theorem mem_updateVal_weak :
    ∀ (qa : QaDict) k v kv, kv ∈ updateVal qa k v → kv = (k, v) ∨ kv ∈ qa := by
  intro qa
  induction qa with
  | nil => intro k v kv hkv; cases hkv
  | cons e rest ih =>
    intro k v kv hkv
    simp only [updateVal] at hkv
    by_cases he : e.1 = k
    · rw [if_pos he] at hkv
      rcases List.mem_cons.mp hkv with rfl | hkv'
      · left; rw [he]
      · right; exact List.mem_cons_of_mem _ hkv'
    · rw [if_neg he] at hkv
      rcases List.mem_cons.mp hkv with rfl | hkv'
      · right; exact List.mem_cons_self _ _
      · rcases ih k v kv hkv' with h | h
        · left; exact h
        · right; exact List.mem_cons_of_mem _ h

theorem lookup?_mem :
    ∀ (qa : QaDict) k v, lookup? qa k = some v → (k, v) ∈ qa := by
  intro qa
  induction qa with
  | nil => intro k v h; cases h
  | cons e rest ih =>
    intro k v h
    simp only [lookup?] at h
    by_cases he : e.1 = k
    · rw [if_pos he] at h
      cases h
      rw [← he]
      exact List.mem_cons_self _ _
    · rw [if_neg he] at h
      exact List.mem_cons_of_mem _ (ih k v h)

/-- Every entry the kemia row loop produces keeps a property that holds of
all entries it inserts. -/
theorem buildQaK_keys_strict :
    ∀ (rows : List (Str × Str)) (qa : QaDict),
      (∀ kv ∈ qa, strictQuestionMatch kv.1 = true) →
      ∀ kv ∈ rows.foldl ingestStepK qa, strictQuestionMatch kv.1 = true := by
  intro rows
  induction rows with
  | nil => intro qa h kv hkv; exact h kv hkv
  | cons row rest ih =>
    intro qa h kv hkv
    refine ih (ingestStepK qa row) ?_ kv hkv
    intro kv' hkv'
    unfold ingestStepK at hkv'
    by_cases hstrict : strictQuestionMatch (extractQuestionStrict row.1) = true
    · rw [if_pos hstrict] at hkv'
      cases hlk : lookup? qa (extractQuestionStrict row.1) with
      | some v =>
        rw [hlk] at hkv'
        rcases mem_updateVal_weak qa _ _ kv' hkv' with rfl | hin
        · exact hstrict
        · exact h kv' hin
      | none =>
        rw [hlk] at hkv'
        rcases List.mem_append.mp hkv' with hin | hnew
        · exact h kv' hin
        · simp only [List.mem_singleton] at hnew
          subst hnew
          exact hstrict
    · rw [if_neg hstrict] at hkv'
      exact h kv' hkv'

/-- If every row is skipped by the strict filter the kemia loop returns its
accumulator unchanged. -/
theorem foldlK_skip :
    ∀ (rows : List (Str × Str)) (qa : QaDict),
      (∀ r ∈ rows, strictQuestionMatch (extractQuestionStrict r.1) = false) →
      rows.foldl ingestStepK qa = qa := by
  intro rows
  induction rows with
  | nil => intro qa _; rfl
  | cons row rest ih =>
    intro qa h
    have hrow := h row (List.mem_cons_self _ _)
    have hstep : ingestStepK qa row = qa := by
      unfold ingestStepK
      rw [if_neg (by rw [hrow]; simp)]
    show rest.foldl ingestStepK (ingestStepK qa row) = qa
    rw [hstep]
    exact ih qa (fun r hr => h r (List.mem_cons_of_mem _ hr))

/-- Rows whose answer cell is empty contribute only empty answer lists. -/
theorem buildQaK_empty_answers :
    ∀ (rows : List (Str × Str)) (qa : QaDict),
      (∀ r ∈ rows, r.2 = []) → (∀ kv ∈ qa, kv.2 = []) →
      ∀ kv ∈ rows.foldl ingestStepK qa, kv.2 = [] := by
  intro rows
  induction rows with
  | nil => intro qa _ h kv hkv; exact h kv hkv
  | cons row rest ih =>
    intro qa hr h kv hkv
    have hrow : row.2 = [] := hr row (List.mem_cons_self _ _)
    refine ih (ingestStepK qa row) (fun r hrr => hr r (List.mem_cons_of_mem _ hrr)) ?_ kv hkv
    intro kv' hkv'
    unfold ingestStepK at hkv'
    have hac : answersFromCellK (some row.2) = [] := by rw [hrow]; decide
    by_cases hstrict : strictQuestionMatch (extractQuestionStrict row.1) = true
    · rw [if_pos hstrict] at hkv'
      cases hlk : lookup? qa (extractQuestionStrict row.1) with
      | some v =>
        rw [hlk] at hkv'
        have hv : v = [] := h _ (lookup?_mem qa _ v hlk)
        rcases mem_updateVal_weak qa _ _ kv' hkv' with rfl | hin
        · show dedupCI (v ++ answersFromCellK (some row.2)) = []
          rw [hv, hac]
          rfl
        · exact h kv' hin
      | none =>
        rw [hlk] at hkv'
        rcases List.mem_append.mp hkv' with hin | hnew
        · exact h kv' hin
        · simp only [List.mem_singleton] at hnew
          subst hnew
          exact hac
    · rw [if_neg hstrict] at hkv'
      exact h kv' hkv'

theorem mem_qaKeys_assignQa (qa : QaDict) (k : Str) (v : List Str) (x : Str)
    (h : x ∈ qaKeys (assignQa qa k v)) : x ∈ qaKeys qa ∨ x = k := by
  unfold assignQa at h
  by_cases hl : (lookup? qa k).isSome
  · rw [if_pos hl, updateVal_keys] at h
    exact Or.inl h
  · rw [if_neg hl, qaKeys_append] at h
    rcases List.mem_append.mp h with h | h
    · exact Or.inl h
    · simp only [List.mem_singleton] at h
      exact Or.inr h

theorem assignFold_keys :
    ∀ (bs : List (Str × Str)) (qa : QaDict) (kv : Str × List Str),
      kv ∈ bs.foldl (fun qa kv => assignQa qa kv.1 (blockAnswers kv.2)) qa →
      kv.1 ∈ qaKeys qa ∨ ∃ b ∈ bs, kv.1 = b.1 := by
  intro bs
  induction bs with
  | nil =>
    intro qa kv hkv
    exact Or.inl (List.mem_map_of_mem _ hkv)
  | cons b rest ih =>
    intro qa kv hkv
    rcases ih (assignQa qa b.1 (blockAnswers b.2)) kv hkv with h | ⟨b', hb', he⟩
    · rcases mem_qaKeys_assignQa qa b.1 _ kv.1 h with h | h
      · exact Or.inl h
      · exact Or.inr ⟨b, List.mem_cons_self _ _, h⟩
    · exact Or.inr ⟨b', List.mem_cons_of_mem _ hb', he⟩

theorem gatherBlocks_keys :
    ∀ (lines : List Str) (cur : Option (Str × List Str)) (kb : Str × Str),
      kb ∈ gatherBlocks lines cur →
      (∃ ln ∈ lines, ∃ qg, headerLineMatch ln = some qg ∧ kb.1 = strip qg ++ ['!']) ∨
      (∃ k acc, cur = some (k, acc) ∧ kb.1 = k) := by
  intro lines
  induction lines with
  | nil =>
    intro cur kb hkb
    cases cur with
    | none => cases hkb
    | some e =>
      simp only [gatherBlocks, flushBlock, List.mem_singleton] at hkb
      subst hkb
      exact Or.inr ⟨e.1, e.2, by cases e; rfl, rfl⟩
  | cons ln rest ih =>
    intro cur kb hkb
    simp only [gatherBlocks] at hkb
    cases hh : headerLineMatch ln with
    | some q =>
      rw [hh] at hkb
      rcases List.mem_append.mp hkb with hfl | hrec
      · cases cur with
        | none => cases hfl
        | some e =>
          simp only [flushBlock, List.mem_singleton] at hfl
          subst hfl
          exact Or.inr ⟨e.1, e.2, by cases e; rfl, rfl⟩
      · rcases ih _ kb hrec with ⟨ln', hln', hq'⟩ | ⟨k, acc, hcur, hk⟩
        · exact Or.inl ⟨ln', List.mem_cons_of_mem _ hln', hq'⟩
        · cases hcur
          exact Or.inl ⟨ln, List.mem_cons_self _ _, q, hh, hk⟩
    | none =>
      rw [hh] at hkb
      cases cur with
      | none =>
        rcases ih none kb hkb with ⟨ln', hln', hq'⟩ | ⟨k, acc, hcur, hk⟩
        · exact Or.inl ⟨ln', List.mem_cons_of_mem _ hln', hq'⟩
        · cases hcur
      | some e =>
        rcases ih _ kb hkb with ⟨ln', hln', hq'⟩ | ⟨k, acc, hcur, hk⟩
        · exact Or.inl ⟨ln', List.mem_cons_of_mem _ hln', hq'⟩
        · cases hcur
          exact Or.inr ⟨e.1, e.2, by cases e; rfl, hk⟩

/-- C7 is false on the code for CSV rows: a row that does not match the
strict question pattern is skipped entirely — its answer cell `"b"` appears
nowhere in the result, instead of extending the previous question's
answers. -/
theorem C7_row_skip_counterexample :
    beolvas_csv_dict_kemia ["questions".data, "answers".data]
      [["1. Q!".data, "a".data], ["not a question".data, "b".data]] "x".data =
      .ok [("1. Q!".data, ["a".data])] ∧
    "b".data ∉ ["a".data] := by
  exact ⟨by decide, by decide⟩

/-- C7 amended: a row or span that does not match the strict pattern never
becomes a question key — every CSV-path key satisfies the strict pattern and
every fallback-parser key comes from a strict header line — and in the
raw-text fallback the non-matching lines are folded into the current
question's answer block (the concrete parse shows `foo`/`bar` joining the
first question); a non-matching CSV row, however, is skipped, not treated as
continuation. -/
theorem C7_strict_keys_amended :
    (∀ rows : List (Str × Str), ∀ kv ∈ buildQaK rows,
        strictQuestionMatch kv.1 = true) ∧
    (∀ text : Str, ∀ kv ∈ parseNumberedTextStrict text,
        ∃ ln ∈ splitOnNl text, ∃ qg, headerLineMatch ln = some qg ∧
          kv.1 = strip qg ++ ['!']) ∧
    parseNumberedTextStrict "1. Q!\nfoo\nbar\n2. R!\nbaz".data =
      [("Q!".data, ["foo\nbar".data]), ("R!".data, ["baz".data])] := by
  refine ⟨?_, ?_, by decide⟩
  · intro rows kv hkv
    exact buildQaK_keys_strict rows [] (by simp) kv hkv
  · intro text kv hkv
    unfold parseNumberedTextStrict at hkv
    rcases assignFold_keys _ [] kv hkv with h | ⟨b, hb, he⟩
    · simp [qaKeys] at h
    · rcases gatherBlocks_keys _ none b hb with ⟨ln, hln, qg, hq, hk⟩ | ⟨k, acc, hcur, _⟩
      · exact ⟨ln, hln, qg, hq, he.trans hk⟩
      · cases hcur

/-- Witness for C7 amended on a concrete row. -/
theorem C7_strict_keys_amended_witness :
    strictQuestionMatch "1. Q!".data = true :=
  C7_strict_keys_amended.1 [("1. Q!".data, "a".data)]
    ("1. Q!".data, ["a".data]) (by decide)

/-- C8 is false on the code: the kemia variant, given a header with a
question column but no answer-column synonym, succeeds from the CSV path
(with empty answer lists) even though the fallback parse yields nothing —
it does not fail with a FormatError kind. -/
theorem C8_missing_column_counterexample :
    beolvas_csv_dict_kemia ["questions".data] [["1. Q!".data]] "x".data =
      .ok [("1. Q!".data, [])] ∧
    parseNumberedTextStrict "x".data = [] ∧
    findColumn ["questions".data] ["answers".data, "answer".data] = none := by
  exact ⟨by decide, by decide, by decide⟩

/-- C8 amended: the molsejt variant fails with a FormatError kind whenever
either column synonym is missing; the strict variant falls back to the
numbered-text parse (failing only when that yields nothing) when the
question column is missing, and when only the answer column is missing it
can succeed from the CSV path, but then every question carries an empty
answer list; no variant guesses an arbitrary column. -/
theorem C8_missing_columns_amended :
    (∀ header records, records ≠ [] →
      (findColumn header ["question".data, "questions".data] = none ∨
        findColumn header ["answer".data, "answers".data] = none) →
      beolvas_csv_dict header records = .error .noHeaderColumns ∧
        isFormatErr .noHeaderColumns = true) ∧
    (∀ header records text, records ≠ [] →
      findColumn header ["questions".data, "question".data] = none →
      beolvas_csv_dict_kemia header records text =
        (match parseNumberedTextStrict text with
          | [] => .error .noQaPairs
          | qaFb => .ok qaFb)) ∧
    (∀ header records text qa,
      findColumn header ["answers".data, "answer".data] = none →
      beolvas_csv_dict_kemia header records text = .ok qa →
      (∀ kv ∈ qa, kv.2 = []) ∨ qa = parseNumberedTextStrict text) := by
  refine ⟨?_, ?_, ?_⟩
  · intro header records hne h
    refine ⟨?_, rfl⟩
    unfold beolvas_csv_dict
    rw [if_neg hne]
    rcases h with hq | ha
    · rw [hq]
    · rw [ha]
      cases findColumn header ["question".data, "questions".data] <;> rfl
  · intro header records text hne hq
    unfold beolvas_csv_dict_kemia
    rw [if_neg hne, hq]
    have hrows : records.map (fun r =>
        (optColGet header r none,
          optColGet header r (findColumn header ["answers".data, "answer".data]))) =
        records.map (fun r =>
          ([], optColGet header r (findColumn header ["answers".data, "answer".data]))) := by
      apply List.map_congr_left
      intro r _
      rfl
    have hskip : buildQaK (records.map (fun r =>
        ([], optColGet header r (findColumn header ["answers".data, "answer".data])))) = [] := by
      apply foldlK_skip
      intro r hr
      rcases List.mem_map.mp hr with ⟨r0, _, rfl⟩
      show strictQuestionMatch (extractQuestionStrict []) = false
      decide
    show (let qa := buildQaK _; if qa = [] then _ else _) = _
    rw [hrows, hskip]
    rfl
  · intro header records text qa ha h
    unfold beolvas_csv_dict_kemia at h
    by_cases hne : records = []
    · rw [if_pos hne] at h
      cases hp : parseNumberedTextStrict text with
      | nil => rw [hp] at h; cases h
      | cons e rest =>
        rw [hp] at h
        cases h
        right
        rfl
    · rw [if_neg hne, ha] at h
      dsimp only at h
      split at h
      · cases hp : parseNumberedTextStrict text with
        | nil => rw [hp] at h; cases h
        | cons e rest =>
          rw [hp] at h
          cases h
          right
          rfl
      · cases h
        left
        intro kv hkv
        refine buildQaK_empty_answers _ [] ?_ (by simp) kv hkv
        intro r hr
        rcases List.mem_map.mp hr with ⟨r0, _, rfl⟩
        rfl

/-- Witness for C8 amended: a molsejt header with no synonyms fails, and a
kemia header with no question column and no parseable fallback fails. -/
theorem C8_missing_columns_amended_witness :
    beolvas_csv_dict ["quest".data] [["x".data]] = .error .noHeaderColumns ∧
    beolvas_csv_dict_kemia ["zz".data] [["1. Q!".data]] "nope".data =
      .error .noQaPairs := by
  constructor
  · exact (C8_missing_columns_amended.1 ["quest".data] [["x".data]]
      (by decide) (by decide)).1
  · have h := C8_missing_columns_amended.2.1 ["zz".data] [["1. Q!".data]]
      "nope".data (by decide) (by decide)
    exact h.trans (by decide)

end Qa
